import Mathlib

/-!
Shallow embedding of the value-bridging layer of the Truckore Pro backend
(`src-tauri/src/main.rs`) and of its statement executor, together with
verification of the claims stated about them.

The external value model is serde_json's `Value` type; the engine-native
model is rusqlite's `Value`/`ValueRef` pair.  `json_to_sql_value` and
`sql_to_json_value` are translated directly from the source.  The pieces of
dependency behaviour the source invokes — serde_json's serializer and
parser, `String::from_utf8_lossy`, base64 `STANDARD` encoding, and the
SQLite echo of a bound parameter — are embedded from their documented
semantics, with the 64-bit-float layer (ryu printing and decimal-to-float
reading, plus the integer-to-float casts) kept as an explicit parameter
record `FloatFns`, since no claim depends on the concrete bit-level
behaviour of those conversions.
-/

namespace ScaleWise

/-- A 64-bit IEEE-754 floating point value, modelled by its bit pattern. -/
structure F64 where
  bits : Nat
deriving DecidableEq, Repr

/-- `f64::is_finite`: the exponent field is not all ones (all-ones encodes
infinities and NaNs). -/
def F64.isFinite (f : F64) : Bool :=
  (f.bits / 2 ^ 52) % 2 ^ 11 ≠ 2047

/-- The float-level conversions the bridged code depends on, kept abstract:
`lit` is ryu shortest-form printing (used by serde_json's serializer),
`parseLit` is decimal-literal-to-double reading (used by serde_json's
parser; `none` models its out-of-range error), and `ofU64`/`ofI64` are the
Rust `as f64` casts used by `serde_json::Number::as_f64`. -/
structure FloatFns where
  lit : F64 → String
  parseLit : List Char → Option F64
  ofU64 : Nat → F64
  ofI64 : Int → F64

/-- A concrete instance of the float-conversion record, used to evaluate
the model at inputs whose behaviour does not depend on float conversions. -/
def fc0 : FloatFns where
  lit := fun _ => "0.0"
  parseLit := fun _ => some ⟨0⟩
  ofU64 := fun _ => ⟨0⟩
  ofI64 := fun _ => ⟨0⟩

/-- `i64::MAX` = 2^63 - 1. -/
def i64MaxN : Nat := 9223372036854775807

/-- `-i64::MIN` = 2^63, the largest negative magnitude. -/
def i64MagMax : Nat := 9223372036854775808

/-- 2^64, one past `u64::MAX`. -/
def u64Size : Nat := 18446744073709551616

/-- serde_json's `Number`: an unsigned 64-bit integer, a negative signed
64-bit integer, or a finite double (the crate's `N` enum without the
arbitrary-precision feature). -/
inductive JNumber where
  | posInt (n : Nat)
  | negInt (i : Int)
  | float (f : F64)
deriving DecidableEq, Repr

/-- The invariants serde_json maintains for `Number`: `posInt` holds a
`u64`, `negInt` holds a strictly negative `i64`. -/
def JNumber.wfb : JNumber → Bool
  | .posInt n => n < u64Size
  | .negInt i => decide (-(i64MagMax : Int) ≤ i) && decide (i < 0)
  | .float _ => true

/-- `serde_json::Number::as_i64`: integer variants in signed range. -/
def JNumber.as_i64 : JNumber → Option Int
  | .posInt n => if n ≤ i64MaxN then some (n : Int) else none
  | .negInt i => some i
  | .float _ => none

/-- `serde_json::Number::as_f64`: always succeeds, casting the integer
variants. -/
def JNumber.as_f64 (fc : FloatFns) : JNumber → Option F64
  | .posInt n => some (fc.ofU64 n)
  | .negInt i => some (fc.ofI64 i)
  | .float f => some f

/-- serde_json's `Value`: the external, dynamically typed value model
(`ExternalValue` in the specification).  Objects are `serde_json::Map`,
a `BTreeMap` kept as a key-sorted association list. -/
inductive JValue where
  | null
  | bool (b : Bool)
  | num (n : JNumber)
  | str (s : String)
  | arr (elems : List JValue)
  | obj (mems : List (String × JValue))

/-- rusqlite's owned `types::Value` (`NativeValue` in the specification). -/
inductive SqlValue where
  | Null
  | Integer (i : Int)
  | Real (f : F64)
  | Text (s : String)
  | Blob (bytes : List Nat)
deriving DecidableEq, Repr

/-- rusqlite's borrowed `types::ValueRef`, as handed to `sql_to_json_value`
when reading a column: text arrives as a raw byte sequence. -/
inductive SqlValueRef where
  | Null
  | Integer (i : Int)
  | Real (f : F64)
  | Text (bytes : List Nat)
  | Blob (bytes : List Nat)
deriving DecidableEq, Repr

/-- Key order of `BTreeMap<String, _>`: lexicographic on code points,
which on UTF-8 encoded keys coincides with Rust's byte-wise order. -/
def keyLtL : List Char → List Char → Bool
  | [], [] => false
  | [], _ :: _ => true
  | _ :: _, [] => false
  | a :: as, b :: bs =>
    if a.toNat < b.toNat then true
    else if b.toNat < a.toNat then false
    else keyLtL as bs

/-- Key order on `String`. -/
def keyLt (a b : String) : Bool := keyLtL a.data b.data

/-- `BTreeMap::insert` on a key-sorted association list (replacing an
existing binding). -/
def insertSorted (k : String) (v : JValue) :
    List (String × JValue) → List (String × JValue)
  | [] => [(k, v)]
  | (k', v') :: m =>
    if keyLt k k' then (k, v) :: (k', v') :: m
    else if k = k' then (k, v) :: m
    else (k', v') :: insertSorted k v m

mutual

/-- Well-formedness of a serde_json `Value` as the crate constructs them:
numbers satisfy the `Number` invariants and object keys are strictly
sorted (each key below every later one). -/
def JValue.wfb : JValue → Bool
  | .null => true
  | .bool _ => true
  | .num n => n.wfb
  | .str _ => true
  | .arr xs => JValue.wfbList xs
  | .obj kvs => JValue.wfbMems kvs

/-- Well-formedness of every element of an array. -/
def JValue.wfbList : List JValue → Bool
  | [] => true
  | x :: xs => x.wfb && JValue.wfbList xs

/-- Well-formedness of object members: sorted keys, well-formed values. -/
def JValue.wfbMems : List (String × JValue) → Bool
  | [] => true
  | (k, v) :: m =>
    v.wfb && m.all (fun p => keyLt k p.1) && JValue.wfbMems m

end

mutual

/-- The float leaves of a value (the conversions a round trip exercises). -/
def JValue.floats : JValue → List F64
  | .null => []
  | .bool _ => []
  | .num (.float f) => [f]
  | .num _ => []
  | .str _ => []
  | .arr xs => JValue.floatsList xs
  | .obj kvs => JValue.floatsMems kvs

/-- Float leaves of an array. -/
def JValue.floatsList : List JValue → List F64
  | [] => []
  | x :: xs => x.floats ++ JValue.floatsList xs

/-- Float leaves of object members. -/
def JValue.floatsMems : List (String × JValue) → List F64
  | [] => []
  | (_, v) :: m => v.floats ++ JValue.floatsMems m

end

mutual

/-- Nesting depth of a value: number of composite layers along the deepest
path (serde_json's parser refuses values deeper than 127). -/
def JValue.jdepth : JValue → Nat
  | .null => 0
  | .bool _ => 0
  | .num _ => 0
  | .str _ => 0
  | .arr xs => 1 + JValue.jdepthList xs
  | .obj kvs => 1 + JValue.jdepthMems kvs

/-- Maximum nesting depth over array elements. -/
def JValue.jdepthList : List JValue → Nat
  | [] => 0
  | x :: xs => max x.jdepth (JValue.jdepthList xs)

/-- Maximum nesting depth over object member values. -/
def JValue.jdepthMems : List (String × JValue) → Nat
  | [] => 0
  | (_, v) :: m => max v.jdepth (JValue.jdepthMems m)

end

/-- Decimal digit character for a value below ten. -/
def digCh (n : Nat) : Char := Char.ofNat (48 + n)

/-- Decimal digits of a natural number, most significant first (itoa). -/
def natToDigits (n : Nat) : List Char :=
  if _h : n < 10 then [digCh n]
  else natToDigits (n / 10) ++ [digCh (n % 10)]
  decreasing_by exact Nat.div_lt_self (by omega) (by omega)

/-- Numeric value of a digit run (fold, most significant first). -/
def digitsToNat (ds : List Char) : Nat :=
  ds.foldl (fun a c => a * 10 + (c.toNat - 48)) 0

/-- Lower-case hexadecimal digit character (serde_json's escape table). -/
def hexDig (n : Nat) : Char :=
  if n < 10 then Char.ofNat (48 + n) else Char.ofNat (87 + n)

/-- Left brace character (object opener). -/
def lbrace : Char := Char.ofNat 123

/-- Right brace character (object closer). -/
def rbrace : Char := Char.ofNat 125

/-- serde_json's escaping of one string character: quote and backslash get
two-character escapes, control characters get their short escapes or a
`\u00XX` sequence, and everything else is emitted verbatim. -/
def escapeChar (c : Char) : List Char :=
  if c = '"' then ['\\', '"']
  else if c = '\\' then ['\\', '\\']
  else if c.toNat < 0x20 then
    if c.toNat = 0x08 then ['\\', 'b']
    else if c.toNat = 0x09 then ['\\', 't']
    else if c.toNat = 0x0A then ['\\', 'n']
    else if c.toNat = 0x0C then ['\\', 'f']
    else if c.toNat = 0x0D then ['\\', 'r']
    else ['\\', 'u', '0', '0', hexDig (c.toNat / 16), hexDig (c.toNat % 16)]
  else [c]

/-- serde_json's escaping of a character list. -/
def escapeList : List Char → List Char
  | [] => []
  | c :: cs => escapeChar c ++ escapeList cs

/-- A serialized JSON string: quote, escaped content, quote. -/
def printStr (s : String) : List Char :=
  '"' :: escapeList s.data ++ ['"']

/-- Serialization of a serde_json number: itoa for the integer variants,
ryu (the abstract `lit`) for doubles. -/
def printNum (fc : FloatFns) : JNumber → List Char
  | .posInt n => natToDigits n
  | .negInt i => '-' :: natToDigits i.natAbs
  | .float f => (fc.lit f).data

mutual

/-- `serde_json::to_string` (compact form), producing the character list of
the canonical serialization. -/
def printJ (fc : FloatFns) : JValue → List Char
  | .null => ['n', 'u', 'l', 'l']
  | .bool false => ['f', 'a', 'l', 's', 'e']
  | .bool true => ['t', 'r', 'u', 'e']
  | .num n => printNum fc n
  | .str s => printStr s
  | .arr xs => '[' :: printElems fc xs ++ [']']
  | .obj kvs => lbrace :: printMems fc kvs ++ [rbrace]

/-- Comma-separated serialization of the elements of an array. -/
def printElems (fc : FloatFns) : List JValue → List Char
  | [] => []
  | [x] => printJ fc x
  | x :: y :: ys => printJ fc x ++ ',' :: printElems fc (y :: ys)

/-- Comma-separated serialization of the members of an object. -/
def printMems (fc : FloatFns) : List (String × JValue) → List Char
  | [] => []
  | [(k, v)] => printStr k ++ ':' :: printJ fc v
  | (k, v) :: m :: ms => printStr k ++ ':' :: printJ fc v ++ ',' :: printMems fc (m :: ms)

end

/-- `serde_json::to_string` as a `String`. -/
def to_string (fc : FloatFns) (v : JValue) : String :=
  String.mk (printJ fc v)

/-- Character of the base64 standard alphabet. -/
def b64Char (n : Nat) : Char :=
  if n < 26 then Char.ofNat (65 + n)
  else if n < 52 then Char.ofNat (97 + (n - 26))
  else if n < 62 then Char.ofNat (48 + (n - 52))
  else if n = 62 then '+'
  else '/'

/-- base64 `general_purpose::STANDARD` encoding (padded) of a byte
sequence, as a character list. -/
def b64Chars : List Nat → List Char
  | b0 :: b1 :: b2 :: rest =>
    b64Char (b0 % 256 / 4) ::
    b64Char ((b0 % 4) * 16 + b1 % 256 / 16) ::
    b64Char ((b1 % 16) * 4 + b2 % 256 / 64) ::
    b64Char (b2 % 64) :: b64Chars rest
  | [b0, b1] =>
    [b64Char (b0 % 256 / 4), b64Char ((b0 % 4) * 16 + b1 % 256 / 16),
     b64Char ((b1 % 16) * 4), '=']
  | [b0] =>
    [b64Char (b0 % 256 / 4), b64Char ((b0 % 4) * 16), '=', '=']
  | [] => []

/-- base64 `STANDARD.encode` of a byte sequence. -/
def base64Std (bs : List Nat) : String := String.mk (b64Chars bs)

/-- UTF-8 encoding of one Unicode scalar value (1–4 bytes). -/
def utf8EncodeChar (c : Char) : List Nat :=
  let n := c.toNat
  if n < 0x80 then [n]
  else if n < 0x800 then [0xC0 + n / 64, 0x80 + n % 64]
  else if n < 0x10000 then
    [0xE0 + n / 4096, 0x80 + n / 64 % 64, 0x80 + n % 64]
  else
    [0xF0 + n / 262144, 0x80 + n / 4096 % 64, 0x80 + n / 64 % 64, 0x80 + n % 64]

/-- UTF-8 encoding of a string, as stored by SQLite for a text value. -/
def utf8Encode (s : String) : List Nat :=
  (s.data.map utf8EncodeChar).flatten

/-- The Unicode replacement character. -/
def replCh : Char := Char.ofNat 0xFFFD

/-- Whether a byte continues a UTF-8 sequence. -/
def isCont (b : Nat) : Bool := 0x80 ≤ b && b ≤ 0xBF

/-- `String::from_utf8_lossy`: decode UTF-8, substituting one replacement
character per maximal invalid subpart (Rust's `Utf8Chunks` semantics: an
invalid prefix of one, two or three bytes is skipped; a truncated final
sequence yields a single replacement character). -/
def utf8Lossy : List Nat → List Char
  | [] => []
  | b0 :: rest =>
    if b0 < 0x80 then Char.ofNat b0 :: utf8Lossy rest
    else if b0 < 0xC2 then replCh :: utf8Lossy rest
    else if b0 ≤ 0xDF then
      match rest with
      | [] => [replCh]
      | b1 :: rest1 =>
        if isCont b1 then
          Char.ofNat ((b0 - 0xC0) * 64 + (b1 - 0x80)) :: utf8Lossy rest1
        else replCh :: utf8Lossy (b1 :: rest1)
    else if b0 ≤ 0xEF then
      match rest with
      | [] => [replCh]
      | b1 :: rest1 =>
        if (if b0 = 0xE0 then 0xA0 ≤ b1 && b1 ≤ 0xBF
            else if b0 = 0xED then 0x80 ≤ b1 && b1 ≤ 0x9F
            else isCont b1) then
          match rest1 with
          | [] => [replCh]
          | b2 :: rest2 =>
            if isCont b2 then
              Char.ofNat ((b0 - 0xE0) * 4096 + (b1 - 0x80) * 64 + (b2 - 0x80)) ::
                utf8Lossy rest2
            else replCh :: utf8Lossy (b2 :: rest2)
        else replCh :: utf8Lossy (b1 :: rest1)
    else if b0 ≤ 0xF4 then
      match rest with
      | [] => [replCh]
      | b1 :: rest1 =>
        if (if b0 = 0xF0 then 0x90 ≤ b1 && b1 ≤ 0xBF
            else if b0 = 0xF4 then 0x80 ≤ b1 && b1 ≤ 0x8F
            else isCont b1) then
          match rest1 with
          | [] => [replCh]
          | b2 :: rest2 =>
            if isCont b2 then
              match rest2 with
              | [] => [replCh]
              | b3 :: rest3 =>
                if isCont b3 then
                  Char.ofNat ((b0 - 0xF0) * 262144 + (b1 - 0x80) * 4096 +
                      (b2 - 0x80) * 64 + (b3 - 0x80)) :: utf8Lossy rest3
                else replCh :: utf8Lossy (b3 :: rest3)
            else replCh :: utf8Lossy (b2 :: rest2)
        else replCh :: utf8Lossy (b1 :: rest1)
    else replCh :: utf8Lossy rest
  termination_by l => l.length
  decreasing_by all_goals (simp_all; try omega)

/-! ### The serde_json parser -/

/-- JSON whitespace skipping (space, tab, newline, carriage return). -/
def skipWs : List Char → List Char
  | [] => []
  | c :: r =>
    if c = ' ' ∨ c = '\t' ∨ c = '\n' ∨ c = '\r' then skipWs r else c :: r

/-- Value of one hexadecimal digit character. -/
def hexVal (c : Char) : Option Nat :=
  if 48 ≤ c.toNat ∧ c.toNat ≤ 57 then some (c.toNat - 48)
  else if 97 ≤ c.toNat ∧ c.toNat ≤ 102 then some (c.toNat - 87)
  else if 65 ≤ c.toNat ∧ c.toNat ≤ 70 then some (c.toNat - 55)
  else none

/-- Value of a four-digit hexadecimal escape. -/
def hex4 (h1 h2 h3 h4 : Char) : Option Nat :=
  match hexVal h1, hexVal h2, hexVal h3, hexVal h4 with
  | some a, some b, some c, some d => some (a * 4096 + b * 256 + c * 16 + d)
  | _, _, _, _ => none

/-- One escape sequence after a backslash: the eight simple escapes and
`\uXXXX` with strict surrogate-pair handling (serde_json errors on a lone
surrogate).  Returns the decoded character and the rest of the input. -/
def parseEscape : List Char → Option (Char × List Char)
  | [] => none
  | e :: r =>
    if e = '"' then some ('"', r)
    else if e = '\\' then some ('\\', r)
    else if e = '/' then some ('/', r)
    else if e = 'b' then some (Char.ofNat 0x08, r)
    else if e = 'f' then some (Char.ofNat 0x0C, r)
    else if e = 'n' then some (Char.ofNat 0x0A, r)
    else if e = 'r' then some (Char.ofNat 0x0D, r)
    else if e = 't' then some (Char.ofNat 0x09, r)
    else if e = 'u' then
      match r with
      | h1 :: h2 :: h3 :: h4 :: r2 =>
        match hex4 h1 h2 h3 h4 with
        | none => none
        | some n =>
          if 0xDC00 ≤ n ∧ n ≤ 0xDFFF then none
          else if 0xD800 ≤ n ∧ n ≤ 0xDBFF then
            match r2 with
            | c1 :: c2 :: k1 :: k2 :: k3 :: k4 :: r3 =>
              if c1 = '\\' ∧ c2 = 'u' then
                match hex4 k1 k2 k3 k4 with
                | none => none
                | some m =>
                  if 0xDC00 ≤ m ∧ m ≤ 0xDFFF then
                    some (Char.ofNat
                      (0x10000 + (n - 0xD800) * 1024 + (m - 0xDC00)), r3)
                  else none
              else none
            | _ => none
          else some (Char.ofNat n, r2)
      | _ => none
    else none

/-- Body of a JSON string after the opening quote: returns the decoded
characters and the input after the closing quote.  Raw control characters
are rejected (serde_json's `ControlCharacterWhileParsingString`).  The
fuel only bounds the recursion for Lean; every step consumes at least one
input character, so the entry point's fuel never runs out. -/
def parseStringBody : Nat → List Char → Option (List Char × List Char)
  | 0, _ => none
  | _ + 1, [] => none
  | fuel + 1, c :: r =>
    if c = '"' then some ([], r)
    else if c = '\\' then
      match parseEscape r with
      | none => none
      | some (ch, r2) =>
        match parseStringBody fuel r2 with
        | some (cs, rr) => some (ch :: cs, rr)
        | none => none
    else if c.toNat < 0x20 then none
    else
      match parseStringBody fuel r with
      | some (cs, rr) => some (c :: cs, rr)
      | none => none

/-- Exponent part of a number literal, after the `e`/`E`: optional sign,
then at least one digit.  Returns the exponent characters and the rest. -/
def lexExpTail (s : List Char) : Option (List Char × List Char) :=
  let sgn : List Char × List Char :=
    match s with
    | '+' :: r => (['+'], r)
    | '-' :: r => (['-'], r)
    | _ => ([], s)
  let ds := sgn.2.takeWhile Char.isDigit
  let r := sgn.2.dropWhile Char.isDigit
  if ds = [] then none else some (sgn.1 ++ ds, r)

/-- Fraction/exponent tail of a number literal, after the integer part.
Returns the tail characters (empty for a plain integer) and the rest. -/
def lexNumTail : List Char → Option (List Char × List Char)
  | [] => some ([], [])
  | c :: r =>
    if c = '.' then
      let fds := r.takeWhile Char.isDigit
      let r1 := r.dropWhile Char.isDigit
      if fds = [] then none
      else
        match r1 with
        | c2 :: r2 =>
          if c2 = 'e' ∨ c2 = 'E' then
            match lexExpTail r2 with
            | some (ecs, r3) => some ('.' :: fds ++ c2 :: ecs, r3)
            | none => none
          else some ('.' :: fds, c2 :: r2)
        | [] => some ('.' :: fds, [])
    else if c = 'e' ∨ c = 'E' then
      match lexExpTail r with
      | some (ecs, r1) => some (c :: ecs, r1)
      | none => none
    else some ([], c :: r)

/-- Turn a fully lexed number literal into a serde_json `Number`: integer
literals land in the `u64`/`i64` variants when they fit and otherwise (or
with a fraction or exponent, or for `-0`) go through the
decimal-to-double conversion, whose failure is the parser's out-of-range
error. -/
def numFinish (fc : FloatFns) (neg : Bool) (n : Nat) (intCs : List Char)
    (r : List Char) : Option (JNumber × List Char) :=
  match lexNumTail r with
  | none => none
  | some (tail, rest) =>
    let token := (if neg then ['-'] else []) ++ intCs ++ tail
    if tail = [] then
      if neg then
        if 1 ≤ n ∧ n ≤ i64MagMax then some (.negInt (-(n : Int)), rest)
        else
          match fc.parseLit token with
          | some f => some (.float f, rest)
          | none => none
      else
        if n < u64Size then some (.posInt n, rest)
        else
          match fc.parseLit token with
          | some f => some (.float f, rest)
          | none => none
    else
      match fc.parseLit token with
      | some f => some (.float f, rest)
      | none => none

/-- Number literal after an optional minus sign: leading zeros are
rejected; the integer digits are accumulated and finished by
`numFinish`. -/
def parseNumCore (fc : FloatFns) (neg : Bool) : List Char → Option (JNumber × List Char)
  | [] => none
  | c :: r =>
    if c = '0' then
      match r with
      | d :: _ =>
        if d.isDigit then none else numFinish fc neg 0 ['0'] r
      | [] => numFinish fc neg 0 ['0'] []
    else if c.isDigit then
      numFinish fc neg (digitsToNat (c :: r.takeWhile Char.isDigit))
        (c :: r.takeWhile Char.isDigit) (r.dropWhile Char.isDigit)
    else none

/-- A JSON number literal (serde_json's `parse_any_number`). -/
def parseNumber (fc : FloatFns) : List Char → Option (JNumber × List Char)
  | [] => none
  | c :: r =>
    if c = '-' then parseNumCore fc true r else parseNumCore fc false (c :: r)

mutual

/-- serde_json's `parse_value`: dispatch on the first character.  `fuel`
only bounds the recursion for Lean and is chosen large enough at the entry
point; `d` is the crate's `remaining_depth`, decremented at every composite
and failing the parse when it reaches zero. -/
def parseValue (fc : FloatFns) : Nat → Nat → List Char → Option (JValue × List Char)
  | 0, _, _ => none
  | fuel + 1, d, s =>
    match s with
    | [] => none
    | c :: r =>
      if c = 'n' then
        match r with
        | 'u' :: 'l' :: 'l' :: r2 => some (.null, r2)
        | _ => none
      else if c = 't' then
        match r with
        | 'r' :: 'u' :: 'e' :: r2 => some (.bool true, r2)
        | _ => none
      else if c = 'f' then
        match r with
        | 'a' :: 'l' :: 's' :: 'e' :: r2 => some (.bool false, r2)
        | _ => none
      else if c = '"' then
        match parseStringBody fuel r with
        | some (cs, r2) => some (.str (String.mk cs), r2)
        | none => none
      else if c = '[' then
        if d - 1 = 0 then none
        else
          match skipWs r with
          | [] => none
          | c2 :: r2 =>
            if c2 = ']' then some (.arr [], r2)
            else
              match parseElems fc fuel (d - 1) (c2 :: r2) with
              | some (xs, r3) => some (.arr xs, r3)
              | none => none
      else if c = lbrace then
        if d - 1 = 0 then none
        else
          match skipWs r with
          | [] => none
          | c2 :: r2 =>
            if c2 = rbrace then some (.obj [], r2)
            else
              match parseMems fc fuel (d - 1) [] (c2 :: r2) with
              | some (kvs, r3) => some (.obj kvs, r3)
              | none => none
      else if c = '-' ∨ c.isDigit then
        match parseNumber fc (c :: r) with
        | some (nm, r2) => some (.num nm, r2)
        | none => none
      else none

/-- Elements of a non-empty array: value, then `,` and more elements or
`]`. -/
def parseElems (fc : FloatFns) : Nat → Nat → List Char → Option (List JValue × List Char)
  | 0, _, _ => none
  | fuel + 1, d, s =>
    match parseValue fc fuel d s with
    | none => none
    | some (v, r) =>
      match skipWs r with
      | [] => none
      | c :: r2 =>
        if c = ',' then
          match parseElems fc fuel d (skipWs r2) with
          | some (vs, r3) => some (v :: vs, r3)
          | none => none
        else if c = ']' then some ([v], r2)
        else none

/-- Members of a non-empty object, inserted left to right into the
accumulated `BTreeMap` (so a duplicate key keeps the later value). -/
def parseMems (fc : FloatFns) : Nat → Nat → List (String × JValue) → List Char →
    Option (List (String × JValue) × List Char)
  | 0, _, _, _ => none
  | fuel + 1, d, acc, s =>
    match s with
    | [] => none
    | c :: r =>
      if c = '"' then
        match parseStringBody fuel r with
        | none => none
        | some (kcs, r1) =>
          match skipWs r1 with
          | [] => none
          | c2 :: r2 =>
            if c2 = ':' then
              match parseValue fc fuel d (skipWs r2) with
              | none => none
              | some (v, r3) =>
                let acc' := insertSorted (String.mk kcs) v acc
                match skipWs r3 with
                | [] => none
                | c3 :: r4 =>
                  if c3 = ',' then parseMems fc fuel d acc' (skipWs r4)
                  else if c3 = rbrace then some (acc', r4)
                  else none
            else none
      else none

end

/-- `serde_json::from_str::<Value>`: whitespace around a single value,
parsed with initial `remaining_depth` 128 and enough fuel for any input
(every recursive call consumes at least one character first). -/
def from_str (fc : FloatFns) (s : String) : Option JValue :=
  match parseValue fc (s.data.length + 2) 128 (skipWs s.data) with
  | some (v, r) =>
    match skipWs r with
    | [] => some v
    | _ => none
  | none => none

/-! ### The value bridge (translated from `src-tauri/src/main.rs`) -/

/-- `json_to_sql_value` from the source: the inbound bridge. -/
def json_to_sql_value (fc : FloatFns) : JValue → SqlValue
  | .null => .Null
  | .bool b => .Integer (if b then 1 else 0)
  | .num n =>
    match n.as_i64 with
    | some i => .Integer i
    | none =>
      match n.as_f64 fc with
      | some f => .Real f
      | none => .Null
  | .str s => .Text s
  | .arr xs => .Text (to_string fc (.arr xs))
  | .obj kvs => .Text (to_string fc (.obj kvs))

/-- `serde_json::json!(i)` on an `i64`: the canonical integer `Number`. -/
def intToJson (i : Int) : JValue :=
  .num (if i < 0 then .negInt i else .posInt i.toNat)

/-- `sql_to_json_value` from the source: the outbound bridge.
`serde_json::json!(f)` on an `f64` yields `Null` for a non-finite value;
text bytes are decoded lossily and then offered to the JSON parser. -/
def sql_to_json_value (fc : FloatFns) : SqlValueRef → JValue
  | .Null => .null
  | .Integer i => intToJson i
  | .Real f => if f.isFinite then .num (.float f) else .null
  | .Text bytes =>
    let text := String.mk (utf8Lossy bytes)
    match from_str fc text with
    | some v => v
    | none => .str text
  | .Blob b => .str (base64Std b)

/-- Modelled from the spec: the relational engine's echo of a bound
parameter through the round-trip query `SELECT ?` — SQLite hands each
stored value back unchanged, text as its UTF-8 bytes. -/
def bindEcho : SqlValue → SqlValueRef
  | .Null => .Null
  | .Integer i => .Integer i
  | .Real f => .Real f
  | .Text s => .Text (utf8Encode s)
  | .Blob b => .Blob b

/-- The value round trip: bind a parameter and read it back. -/
def roundTrip (fc : FloatFns) (v : JValue) : JValue :=
  sql_to_json_value fc (bindEcho (json_to_sql_value fc v))

/-! ### The statement executor (`execute_query` from the source) -/

/-- One step of the row-assembly closure in `execute_query`: walk the
captured column names, reading column `i` of the row; `none` models the
panic of `row.get_ref(i).unwrap()` when the index is out of range.  Each
read value is bridged outbound and inserted into the `serde_json::Map`
accumulator. -/
def rowToRecordGo (fc : FloatFns) (row : List SqlValueRef) :
    Nat → List String → List (String × JValue) → Option (List (String × JValue))
  | _, [], acc => some acc
  | i, name :: rest, acc =>
    match row[i]? with
    | some rref =>
      rowToRecordGo fc row (i + 1) rest
        (insertSorted name (sql_to_json_value fc rref) acc)
    | none => none

/-- The row-assembly closure of `execute_query`. -/
def rowToRecord (fc : FloatFns) (names : List String) (row : List SqlValueRef) :
    Option (List (String × JValue)) :=
  rowToRecordGo fc row 0 names []

/-- The row-collection loop of `execute_query`: each element of the stream
is either a row-extraction failure (surfaced by `query_map`'s iterator) or
the fetched row's native values.  A failure aborts the loop with that
error; otherwise every row is assembled.  The outer `none` models a panic
inside the closure. -/
def collectRows (fc : FloatFns) (names : List String) :
    List (Except String (List SqlValueRef)) → Option (Except String (List JValue))
  | [] => some (.ok [])
  | .error e :: _ => some (.error e)
  | .ok row :: rest =>
    match rowToRecord fc names row with
    | none => none
    | some recd =>
      match collectRows fc names rest with
      | some (.ok recs) => some (.ok (.obj recd :: recs))
      | some (.error e) => some (.error e)
      | none => none

/-- `execute_query` from the source, over the outcomes the engine reports:
statement preparation, parameter binding, and the stream of
row-extraction results. -/
def execute_query (fc : FloatFns) (prep bnd : Except String Unit)
    (names : List String) (rows : List (Except String (List SqlValueRef))) :
    Option (Except String (List JValue)) :=
  match prep with
  | .error e => some (.error e)
  | .ok _ =>
    match bnd with
    | .error e => some (.error e)
    | .ok _ => collectRows fc names rows

/-! ### Spec-side definitions for the bridge case tables -/

/-- Modelled from the spec: the inbound case table of §4.1
(ExternalValue → NativeValue), written with the spec's
"representable as" conditions. -/
def specInbound (fc : FloatFns) : JValue → SqlValue
  | .null => .Null
  | .bool b => .Integer (if b then 1 else 0)
  | .num n =>
    if h1 : n.as_i64.isSome then .Integer (n.as_i64.get h1)
    else if h2 : (n.as_f64 fc).isSome then .Real ((n.as_f64 fc).get h2)
    else .Null
  | .str s => .Text s
  | .arr xs => .Text (to_string fc (.arr xs))
  | .obj kvs => .Text (to_string fc (.obj kvs))

/-- Modelled from the spec: the outbound case table of §4.1
(NativeValue → ExternalValue), amended in the Real case — the code maps a
non-finite Real to Null (`serde_json`'s `From<f64>`), not to a Number. -/
def specOutbound (fc : FloatFns) : SqlValueRef → JValue
  | .Null => .null
  | .Integer i => intToJson i
  | .Real f => if f.isFinite then .num (.float f) else .null
  | .Text bytes =>
    let s := String.mk (utf8Lossy bytes)
    match from_str fc s with
    | some v => v
    | none => .str s
  | .Blob b => .str (base64Std b)

/-- An `f64` bit pattern that is not finite (a quiet NaN). -/
def nanF64 : F64 := ⟨0x7FF8000000000000⟩

/-! ### Executor lemmas -/

theorem rowToRecordGo_isSome (fc : FloatFns) (row : List SqlValueRef) :
    ∀ (names : List String) (i : Nat) (acc : List (String × JValue)),
      i + names.length ≤ row.length →
      (rowToRecordGo fc row i names acc).isSome = true := by
  intro names
  induction names with
  | nil => intro i acc _; simp [rowToRecordGo]
  | cons name rest ih =>
    intro i acc h
    have hi : i < row.length := by simp at h; omega
    rw [rowToRecordGo, List.getElem?_eq_getElem hi]
    exact ih (i + 1) _ (by simp at h ⊢; omega)

theorem collectRows_spec (fc : FloatFns) (names : List String) :
    ∀ rows : List (Except String (List SqlValueRef)),
      (∀ r ∈ rows, ∀ vals, r = Except.ok vals → names.length ≤ vals.length) →
      ∃ res, collectRows fc names rows = some res ∧
        ((∃ e, res = Except.error e ∧ Except.error e ∈ rows) ∨
         (∃ recs, res = Except.ok recs ∧ recs.length = rows.length ∧
           ∀ r ∈ rows, ∃ vals, r = Except.ok vals)) := by
  intro rows
  induction rows with
  | nil => exact fun _ => ⟨.ok [], rfl, .inr ⟨[], rfl, rfl, by simp⟩⟩
  | cons r rest ih =>
    intro hw
    cases r with
    | error e => exact ⟨.error e, rfl, .inl ⟨e, rfl, by simp⟩⟩
    | ok row =>
      have hlen : names.length ≤ row.length := hw _ (by simp) row rfl
      have hsome := rowToRecordGo_isSome fc row names 0 [] (by omega)
      obtain ⟨recd, hrecd⟩ := Option.isSome_iff_exists.mp hsome
      obtain ⟨res, hres, hcase⟩ :=
        ih (fun r hr vals hv => hw r (by simp [hr]) vals hv)
      rcases hcase with ⟨e, rfl, hmem⟩ | ⟨recs, rfl, hlen2, hall⟩
      · refine ⟨.error e, ?_, .inl ⟨e, rfl, by simp [hmem]⟩⟩
        simp [collectRows, rowToRecord, hrecd, hres]
      · refine ⟨.ok (.obj recd :: recs), ?_, .inr ⟨_, rfl, by simp [hlen2], ?_⟩⟩
        · simp [collectRows, rowToRecord, hrecd, hres]
        · intro r hr
          rcases List.mem_cons.mp hr with rfl | hr'
          · exact ⟨row, rfl⟩
          · exact hall r hr'

/-! ### Claims settled without the parser–printer round trip -/

/-- C1: the inbound bridge maps every ExternalValue per the spec's exact
case table (Null ↦ Null; Boolean ↦ 0/1 Integer; Number via the
`as_i64`/`as_f64` representability chain with Null as fail-safe;
String ↦ Text; composites ↦ Text of the canonical serialization). -/
theorem claim_C1_inbound_case_table (fc : FloatFns) (v : JValue) :
    json_to_sql_value fc v = specInbound fc v := by
  cases v with
  | num n =>
    rcases n with n | i | f
    · by_cases hn : n ≤ i64MaxN <;>
        simp [json_to_sql_value, specInbound, JNumber.as_i64, JNumber.as_f64, hn]
    · simp [json_to_sql_value, specInbound, JNumber.as_i64, JNumber.as_f64]
    · simp [json_to_sql_value, specInbound, JNumber.as_i64, JNumber.as_f64]
  | _ => rfl

/-- C2 counterexample: the outbound bridge does not map every Real to a
Number — a non-finite Real (NaN bit pattern) is mapped to Null by
`serde_json::json!`. -/
theorem claim_C2_counterexample :
    sql_to_json_value fc0 (.Real nanF64) = .null ∧
    sql_to_json_value fc0 (.Real nanF64) ≠ .num (.float nanF64) := by
  have h : sql_to_json_value fc0 (.Real nanF64) = .null := rfl
  exact ⟨h, by rw [h]; simp⟩

/-- C2 (amended): the outbound bridge follows the spec's case table with
the Real row amended to "Number(f) when f is finite, Null otherwise"; every
Blob maps to the base-64 String of its bytes; and the inbound bridge never
produces a Blob. -/
theorem claim_C2_outbound_case_table (fc : FloatFns) :
    (∀ r, sql_to_json_value fc r = specOutbound fc r) ∧
    (∀ bytes, sql_to_json_value fc (.Blob bytes) = .str (base64Std bytes)) ∧
    (∀ v bytes, json_to_sql_value fc v ≠ .Blob bytes) := by
  refine ⟨fun r => ?_, fun bytes => rfl, fun v bytes => ?_⟩
  · cases r <;> rfl
  · cases v with
    | num n =>
      rcases n with n | i | f
      · by_cases hn : n ≤ i64MaxN <;>
          simp [json_to_sql_value, JNumber.as_i64, JNumber.as_f64, hn]
      · simp [json_to_sql_value, JNumber.as_i64]
      · simp [json_to_sql_value, JNumber.as_i64, JNumber.as_f64]
    | _ => simp [json_to_sql_value]

/-- C6: a Boolean round trips to the Number 1 (true) or 0 (false), never
to a Boolean. -/
theorem claim_C6_boolean_roundtrip (fc : FloatFns) :
    roundTrip fc (.bool true) = .num (.posInt 1) ∧
    roundTrip fc (.bool false) = .num (.posInt 0) ∧
    ∀ b b', roundTrip fc (.bool b) ≠ .bool b' := by
  refine ⟨rfl, rfl, fun b b' => ?_⟩
  cases b <;> simp [roundTrip, json_to_sql_value, bindEcho, sql_to_json_value, intToJson]

/-- C7: both bridge directions are total — every ExternalValue has an
inbound image, every NativeValue has an outbound image, and text whose
contents fail to parse degrades to the String case rather than an error. -/
theorem claim_C7_bridge_total (fc : FloatFns) :
    (∀ v, ∃ n, json_to_sql_value fc v = n) ∧
    (∀ r, ∃ j, sql_to_json_value fc r = j) ∧
    (∀ bytes, from_str fc (String.mk (utf8Lossy bytes)) = none →
      sql_to_json_value fc (.Text bytes) = .str (String.mk (utf8Lossy bytes))) := by
  refine ⟨fun v => ⟨_, rfl⟩, fun r => ⟨_, rfl⟩, fun bytes h => ?_⟩
  simp [sql_to_json_value, h]

/-- Witness for C7: the unparseable text "hi" survives as a String. -/
theorem claim_C7_witness :
    sql_to_json_value fc0 (.Text [0x68, 0x69]) =
      .str (String.mk (utf8Lossy [0x68, 0x69])) := by
  refine (claim_C7_bridge_total fc0).2.2 [0x68, 0x69] ?_
  have hl : utf8Lossy [0x68, 0x69] = ['h', 'i'] := by simp [utf8Lossy]
  rw [hl]; rfl

/-- C9: reading a Text cell always lossily decodes the bytes (replacement
characters for invalid sequences) before the parse attempt, and always
returns a value; shown with the behaviour on every byte sequence plus a
concrete invalid-UTF-8 example. -/
theorem claim_C9_text_lossy_decode :
    (∀ (fc : FloatFns) (bytes : List Nat),
      sql_to_json_value fc (.Text bytes) =
        (match from_str fc (String.mk (utf8Lossy bytes)) with
         | some v => v
         | none => .str (String.mk (utf8Lossy bytes)))) ∧
    utf8Lossy [0x61, 0xFF, 0x62] = ['a', replCh, 'b'] ∧
    sql_to_json_value fc0 (.Text [0xFF]) = .str (String.mk [replCh]) := by
  refine ⟨fun _ _ => rfl, by simp [utf8Lossy], ?_⟩
  have hl : utf8Lossy [0xFF] = [replCh] := by simp [utf8Lossy]
  show (match from_str fc0 (String.mk (utf8Lossy [0xFF])) with
        | some v => v
        | none => .str (String.mk (utf8Lossy [0xFF]))) = _
  rw [hl]; rfl

/-- C10: the per-column `unwrap` in the row-assembly closure never hits its
panic branch when the row is as wide as the statement's captured column
count. -/
theorem claim_C10_no_index_panic (fc : FloatFns) (names : List String)
    (row : List SqlValueRef) (h : row.length = names.length) :
    (rowToRecord fc names row).isSome = true :=
  rowToRecordGo_isSome fc row names 0 [] (by omega)

/-- Witness for C10 at a one-column row. -/
theorem claim_C10_witness :
    ([SqlValueRef.Null] : List SqlValueRef).length = (["a"] : List String).length ∧
    (rowToRecord fc0 ["a"] [SqlValueRef.Null]).isSome = true :=
  ⟨rfl, claim_C10_no_index_panic fc0 ["a"] [.Null] rfl⟩

/-- C8: `execute_query` has no partial-success outcome — for rows of the
statement's width, the call either returns an error (and then preparation,
binding, or some row extraction failed, with no records returned) or the
full materialized sequence of records, never both. -/
theorem claim_C8_no_partial_success (fc : FloatFns) (prep bnd : Except String Unit)
    (names : List String) (rows : List (Except String (List SqlValueRef)))
    (hw : ∀ r ∈ rows, ∀ vals, r = Except.ok vals → names.length ≤ vals.length) :
    ∃ res, execute_query fc prep bnd names rows = some res ∧
      (((∃ e, res = Except.error e) ∧
        ((∃ e, prep = Except.error e) ∨ (∃ e, bnd = Except.error e) ∨
         (∃ e, Except.error e ∈ rows))) ∨
       (∃ recs, res = Except.ok recs ∧ recs.length = rows.length ∧
         ∀ r ∈ rows, ∃ vals, r = Except.ok vals)) := by
  cases prep with
  | error e => exact ⟨.error e, rfl, .inl ⟨⟨e, rfl⟩, .inl ⟨e, rfl⟩⟩⟩
  | ok u =>
    cases bnd with
    | error e =>
      cases u
      exact ⟨.error e, rfl, .inl ⟨⟨e, rfl⟩, .inr (.inl ⟨e, rfl⟩)⟩⟩
    | ok u' =>
      cases u; cases u'
      obtain ⟨res, hres, hcase⟩ := collectRows_spec fc names rows hw
      refine ⟨res, by simpa [execute_query] using hres, ?_⟩
      rcases hcase with ⟨e, rfl, hmem⟩ | hok
      · exact .inl ⟨⟨e, rfl⟩, .inr (.inr ⟨e, hmem⟩)⟩
      · exact .inr hok

/-- The one-row, one-column row stream used by the C8 witness. -/
def sampleRows : List (Except String (List SqlValueRef)) := [.ok [.Null]]

/-- Witness for C8 at a one-row, one-column success. -/
theorem claim_C8_witness :
    ∃ res, execute_query fc0 (.ok ()) (.ok ()) ["a"] sampleRows = some res ∧
      (((∃ e, res = Except.error e) ∧
        ((∃ e, (Except.ok () : Except String Unit) = Except.error e) ∨
         (∃ e, (Except.ok () : Except String Unit) = Except.error e) ∨
         (∃ e, Except.error e ∈ sampleRows))) ∨
       (∃ recs, res = Except.ok recs ∧
         recs.length = sampleRows.length ∧
         ∀ r ∈ sampleRows, ∃ vals, r = Except.ok vals)) :=
  claim_C8_no_partial_success fc0 (.ok ()) (.ok ()) ["a"] sampleRows
    (by intro r hr vals hv; simp [sampleRows] at hr; subst hr; cases hv; simp)

/-! ### UTF-8 round trip: decoding an encoded string is the identity -/

theorem char_toNat_valid (c : Char) :
    c.toNat < 0xd800 ∨ (0xdfff < c.toNat ∧ c.toNat < 0x110000) := by
  rcases c.valid with h | ⟨h1, h2⟩
  · exact Or.inl (by simpa [UInt32.lt_def, BitVec.lt_def, Char.toNat, UInt32.toNat] using h)
  · exact Or.inr ⟨by simpa [UInt32.lt_def, BitVec.lt_def, Char.toNat, UInt32.toNat] using h1,
      by simpa [UInt32.lt_def, BitVec.lt_def, Char.toNat, UInt32.toNat] using h2⟩

theorem utf8Lossy_encodeChar (c : Char) (bs : List Nat) :
    utf8Lossy (utf8EncodeChar c ++ bs) = c :: utf8Lossy bs := by
  have hv := char_toNat_valid c
  have hofn : Char.ofNat c.toNat = c := Char.ofNat_toNat c
  rw [utf8EncodeChar]
  by_cases h1 : c.toNat < 0x80
  · simp only [if_pos h1, List.cons_append, List.nil_append]
    rw [utf8Lossy.eq_def]
    simp [h1, hofn]
  · by_cases h2 : c.toNat < 0x800
    · simp only [if_neg h1, if_pos h2, List.cons_append, List.nil_append]
      have e1 : ¬(0xC0 + c.toNat / 64 < 0x80) := by omega
      have e2 : ¬(0xC0 + c.toNat / 64 < 0xC2) := by omega
      have e3 : 0xC0 + c.toNat / 64 ≤ 0xDF := by omega
      have e4 : isCont (0x80 + c.toNat % 64) = true := by simp [isCont]; omega
      rw [utf8Lossy.eq_def]
      simp only [if_neg e1, if_neg e2, if_pos e3, e4, if_pos]
      have : (0xC0 + c.toNat / 64 - 0xC0) * 64 + (0x80 + c.toNat % 64 - 0x80)
          = c.toNat := by omega
      rw [this, hofn]
    · by_cases h3 : c.toNat < 0x10000
      · simp only [if_neg h1, if_neg h2, if_pos h3, List.cons_append, List.nil_append]
        have e1 : ¬(0xE0 + c.toNat / 4096 < 0x80) := by omega
        have e2 : ¬(0xE0 + c.toNat / 4096 < 0xC2) := by omega
        have e3 : ¬(0xE0 + c.toNat / 4096 ≤ 0xDF) := by omega
        have e4 : 0xE0 + c.toNat / 4096 ≤ 0xEF := by omega
        have e5 : (if 0xE0 + c.toNat / 4096 = 0xE0 then
              decide (0xA0 ≤ 0x80 + c.toNat / 64 % 64) && decide (0x80 + c.toNat / 64 % 64 ≤ 0xBF)
            else if 0xE0 + c.toNat / 4096 = 0xED then
              decide (0x80 ≤ 0x80 + c.toNat / 64 % 64) && decide (0x80 + c.toNat / 64 % 64 ≤ 0x9F)
            else isCont (0x80 + c.toNat / 64 % 64)) = true := by
          split_ifs with hc1 hc2 <;> simp [isCont] <;> omega
        have e6 : isCont (0x80 + c.toNat % 64) = true := by simp [isCont]; omega
        rw [utf8Lossy.eq_def]
        simp only [if_neg e1, if_neg e2, if_neg e3, if_pos e4, e5, e6, if_pos]
        have : (0xE0 + c.toNat / 4096 - 0xE0) * 4096 +
            (0x80 + c.toNat / 64 % 64 - 0x80) * 64 + (0x80 + c.toNat % 64 - 0x80)
            = c.toNat := by omega
        rw [this, hofn]
      · simp only [if_neg h1, if_neg h2, if_neg h3, List.cons_append, List.nil_append]
        have e1 : ¬(0xF0 + c.toNat / 262144 < 0x80) := by omega
        have e2 : ¬(0xF0 + c.toNat / 262144 < 0xC2) := by omega
        have e3 : ¬(0xF0 + c.toNat / 262144 ≤ 0xDF) := by omega
        have e4 : ¬(0xF0 + c.toNat / 262144 ≤ 0xEF) := by omega
        have e5 : 0xF0 + c.toNat / 262144 ≤ 0xF4 := by omega
        have e6 : (if 0xF0 + c.toNat / 262144 = 0xF0 then
              decide (0x90 ≤ 0x80 + c.toNat / 4096 % 64) && decide (0x80 + c.toNat / 4096 % 64 ≤ 0xBF)
            else if 0xF0 + c.toNat / 262144 = 0xF4 then
              decide (0x80 ≤ 0x80 + c.toNat / 4096 % 64) && decide (0x80 + c.toNat / 4096 % 64 ≤ 0x8F)
            else isCont (0x80 + c.toNat / 4096 % 64)) = true := by
          split_ifs with hc1 hc2 <;> simp [isCont] <;> omega
        have e7 : isCont (0x80 + c.toNat / 64 % 64) = true := by simp [isCont]; omega
        have e8 : isCont (0x80 + c.toNat % 64) = true := by simp [isCont]; omega
        rw [utf8Lossy.eq_def]
        simp only [if_neg e1, if_neg e2, if_neg e3, if_neg e4, if_pos e5, e6, e7, e8, if_pos]
        have : (0xF0 + c.toNat / 262144 - 0xF0) * 262144 +
            (0x80 + c.toNat / 4096 % 64 - 0x80) * 4096 +
            (0x80 + c.toNat / 64 % 64 - 0x80) * 64 + (0x80 + c.toNat % 64 - 0x80)
            = c.toNat := by omega
        rw [this, hofn]

theorem utf8Lossy_encode_data (cs : List Char) :
    utf8Lossy ((cs.map utf8EncodeChar).flatten) = cs := by
  induction cs with
  | nil => simp [utf8Lossy]
  | cons c cs ih =>
    simp only [List.map_cons, List.flatten_cons]
    rw [utf8Lossy_encodeChar, ih]

theorem utf8_roundtrip (s : String) : utf8Lossy (utf8Encode s) = s.data := by
  rw [utf8Encode]; exact utf8Lossy_encode_data s.data

/-- `String.mk` of a string's character list gives the string back. -/
theorem string_mk_data (s : String) : String.mk s.data = s := by
  cases s; rfl

/-- The Text round trip reaches the parse attempt with exactly the bound
string: binding stores its UTF-8 bytes and reading decodes them back. -/
theorem roundTrip_str (fc : FloatFns) (s : String) :
    roundTrip fc (.str s) =
      (match from_str fc s with
       | some v => v
       | none => .str s) := by
  show (let text := String.mk (utf8Lossy (utf8Encode s))
        match from_str fc text with
        | some v => v
        | none => .str text) = _
  rw [utf8_roundtrip, string_mk_data]

/-- C4: a String whose contents parse as a serialized structured value
round trips to the parsed structured form, not to the original String. -/
theorem claim_C4_string_parsed_roundtrip (fc : FloatFns) (s : String) (v : JValue)
    (h : from_str fc s = some v) :
    roundTrip fc (.str s) = v := by
  rw [roundTrip_str, h]

/-- Witness for C4: the text "42" comes back as the Number 42. -/
theorem claim_C4_witness :
    from_str fc0 "42" = some (.num (.posInt 42)) ∧
    roundTrip fc0 (.str "42") = .num (.posInt 42) :=
  ⟨rfl, claim_C4_string_parsed_roundtrip fc0 "42" (.num (.posInt 42)) rfl⟩

/-- C3 counterexample: the String "42" does not round trip to itself — it
comes back as the Number 42 — refuting the claim for arbitrary Strings. -/
theorem claim_C3_counterexample :
    roundTrip fc0 (.str "42") = .num (.posInt 42) ∧
    roundTrip fc0 (.str "42") ≠ .str "42" := by
  have h : roundTrip fc0 (.str "42") = .num (.posInt 42) := by
    rw [roundTrip_str]; rfl
  exact ⟨h, by rw [h]; simp⟩

/-- C3 (amended): Null, Numbers in 64-bit-signed-integer range, and
Strings whose contents do not parse as a serialized structured value round
trip exactly. -/
theorem claim_C3_roundtrip_amended (fc : FloatFns) (v : JValue)
    (hwf : v.wfb = true)
    (hcase : v = .null ∨ (∃ n, v = .num n ∧ n.as_i64.isSome = true) ∨
      (∃ s, v = .str s ∧ from_str fc s = none)) :
    roundTrip fc v = v := by
  rcases hcase with rfl | ⟨n, rfl, hi⟩ | ⟨s, rfl, hp⟩
  · rfl
  · rcases n with n | i | f
    · by_cases hn : n ≤ i64MaxN
      · have h0 : ¬((n : Int) < 0) := by omega
        simp [roundTrip, json_to_sql_value, JNumber.as_i64, hn, bindEcho,
          sql_to_json_value, intToJson, h0]
      · simp [JNumber.as_i64, hn] at hi
    · have hineg : i < 0 := by
        simp [JValue.wfb, JNumber.wfb] at hwf; exact hwf.2
      simp [roundTrip, json_to_sql_value, JNumber.as_i64, bindEcho,
        sql_to_json_value, intToJson, hineg]
    · simp [JNumber.as_i64] at hi
  · rw [roundTrip_str, hp]

/-- Witness for C3 at the in-range Number -5. -/
theorem claim_C3_witness :
    (JValue.num (.negInt (-5))).wfb = true ∧
    roundTrip fc0 (.num (.negInt (-5))) = .num (.negInt (-5)) :=
  ⟨rfl, claim_C3_roundtrip_amended fc0 (.num (.negInt (-5))) rfl
    (Or.inr (Or.inl ⟨.negInt (-5), rfl, rfl⟩))⟩

/-! ### Character and digit lemmas for the parser–printer round trip -/

theorem char_toNat_ofNat (n : Nat) (hv : n.isValidChar) :
    (Char.ofNat n).toNat = n := by
  rw [Char.ofNat, dif_pos hv]
  simp [Char.ofNatAux, Char.toNat, UInt32.toNat]

theorem char_toNat_ofNat_small (n : Nat) (h : n < 0xd800) :
    (Char.ofNat n).toNat = n :=
  char_toNat_ofNat n (Or.inl (by simpa using h))

theorem char_eq_of_toNat_eq (c d : Char) (h : c.toNat = d.toNat) : c = d := by
  have := Char.ofNat_toNat c
  rw [h, Char.ofNat_toNat] at this
  exact this.symm

theorem charIsDigit_iff (c : Char) :
    c.isDigit = true ↔ 48 ≤ c.toNat ∧ c.toNat ≤ 57 := by
  simp [Char.isDigit, UInt32.le_def, BitVec.le_def, Char.toNat, UInt32.toNat,
    decide_eq_true_eq]

theorem digCh_toNat (n : Nat) (h : n < 10) : (digCh n).toNat = 48 + n :=
  char_toNat_ofNat_small (48 + n) (by omega)

theorem digCh_isDigit (n : Nat) (h : n < 10) : (digCh n).isDigit = true := by
  rw [charIsDigit_iff, digCh_toNat n h]; omega

theorem natToDigits_ne_nil (n : Nat) : natToDigits n ≠ [] := by
  rw [natToDigits]
  split <;> simp

theorem natToDigits_all_digits (n : Nat) : ∀ c ∈ natToDigits n, c.isDigit = true := by
  induction n using Nat.strong_induction_on with
  | _ n ih =>
    rw [natToDigits]
    split
    · next h => intro c hc; simp at hc; subst hc; exact digCh_isDigit n h
    · next h =>
      intro c hc
      rcases List.mem_append.mp hc with h1 | h2
      · exact ih (n / 10) (Nat.div_lt_self (by omega) (by omega)) c h1
      · simp at h2; subst h2; exact digCh_isDigit (n % 10) (by omega)

theorem natToDigits_head_pos (n : Nat) :
    1 ≤ n → ∀ c cs, natToDigits n = c :: cs → c ≠ '0' := by
  induction n using Nat.strong_induction_on with
  | _ n ih =>
    intro hn c cs hc hcz
    rw [natToDigits] at hc
    split at hc
    · next h =>
      simp at hc
      have h1 := digCh_toNat n h
      rw [hc.1, hcz] at h1
      have h0 : ('0' : Char).toNat = 48 := rfl
      omega
    · next h =>
      rcases he : natToDigits (n / 10) with _ | ⟨d, ds⟩
      · exact absurd he (natToDigits_ne_nil _)
      · rw [he] at hc
        simp at hc
        exact ih (n / 10) (Nat.div_lt_self (by omega) (by omega)) (by omega)
          d ds he (hc.1.trans hcz)

theorem foldl_natToDigits (n : Nat) : ∀ a : Nat,
    (natToDigits n).foldl (fun x c => x * 10 + (c.toNat - 48)) a
      = a * 10 ^ (natToDigits n).length + n := by
  induction n using Nat.strong_induction_on with
  | _ n ih =>
    intro a
    rw [natToDigits]
    split
    · next h =>
      simp [digCh_toNat n h]
      try omega
    · next h =>
      rw [List.foldl_append, ih (n / 10) (Nat.div_lt_self (by omega) (by omega))]
      have hd : 48 + n % 10 - 48 = n % 10 := by omega
      simp only [List.foldl_cons, List.foldl_nil, digCh_toNat (n % 10) (by omega), hd,
        List.length_append, List.length_cons, List.length_nil, Nat.add_zero]
      have hdm : n / 10 * 10 + n % 10 = n := by omega
      rw [Nat.pow_succ]
      nlinarith [hdm]

theorem digitsToNat_natToDigits (n : Nat) : digitsToNat (natToDigits n) = n := by
  have := foldl_natToDigits n 0
  simpa [digitsToNat] using this

theorem takeWhile_append_all {α : Type} (p : α → Bool) :
    ∀ (xs ys : List α), (∀ x ∈ xs, p x = true) →
      (ys = [] ∨ ∃ y ys', ys = y :: ys' ∧ p y = false) →
      (xs ++ ys).takeWhile p = xs ∧ (xs ++ ys).dropWhile p = ys := by
  intro xs
  induction xs with
  | nil =>
    intro ys _ hys
    rcases hys with rfl | ⟨y, ys', rfl, hy⟩
    · simp
    · simp [List.takeWhile, List.dropWhile, hy]
  | cons x xs ih =>
    intro ys hall hys
    have hx : p x = true := hall x (by simp)
    have := ih ys (fun z hz => hall z (by simp [hz])) hys
    simp [List.takeWhile, List.dropWhile, hx, this.1, this.2]

/-- The continuations a printed value can be followed by inside a larger
serialization: nothing, or a separator/closer. -/
def goodRest (r : List Char) : Prop :=
  r = [] ∨ ∃ c cs, r = c :: cs ∧ (c = ',' ∨ c = ']' ∨ c = rbrace)

theorem goodRest_nil : goodRest [] := Or.inl rfl

theorem goodRest_comma (cs : List Char) : goodRest (',' :: cs) :=
  Or.inr ⟨',', cs, rfl, Or.inl rfl⟩

theorem goodRest_rbracket (cs : List Char) : goodRest (']' :: cs) :=
  Or.inr ⟨']', cs, rfl, Or.inr (Or.inl rfl)⟩

theorem goodRest_rbrace (cs : List Char) : goodRest (rbrace :: cs) :=
  Or.inr ⟨rbrace, cs, rfl, Or.inr (Or.inr rfl)⟩

theorem goodRest_shape (r : List Char) (h : goodRest r) :
    r = [] ∨ ∃ c cs, r = c :: cs ∧ c.isDigit = false ∧ c ≠ '.' ∧ c ≠ 'e' ∧
      c ≠ 'E' ∧ c ≠ '-' := by
  rcases h with rfl | ⟨c, cs, rfl, hc⟩
  · exact Or.inl rfl
  · refine Or.inr ⟨c, cs, rfl, ?_⟩
    rcases hc with rfl | rfl | rfl
    · exact ⟨by decide, by decide, by decide, by decide, by decide⟩
    · exact ⟨by decide, by decide, by decide, by decide, by decide⟩
    · exact ⟨by decide, by decide, by decide, by decide, by decide⟩

theorem lexNumTail_goodRest (r : List Char) (h : goodRest r) :
    lexNumTail r = some ([], r) := by
  rcases goodRest_shape r h with rfl | ⟨c, cs, rfl, _, hdot, he, hE, _⟩
  · rfl
  · have hee : ¬(c = 'e' ∨ c = 'E') := by simp [he, hE]
    simp [lexNumTail, hdot, hee]

/-! ### String escaping round trip -/

theorem hexVal_hexDig (n : Nat) (h : n < 16) : hexVal (hexDig n) = some n := by
  by_cases h10 : n < 10
  · have ht : (Char.ofNat (48 + n)).toNat = 48 + n :=
      char_toNat_ofNat_small _ (by omega)
    have c1 : 48 ≤ 48 + n ∧ 48 + n ≤ 57 := by omega
    simp [hexDig, h10, hexVal, ht, c1]
  · have ht : (Char.ofNat (87 + n)).toNat = 87 + n :=
      char_toNat_ofNat_small _ (by omega)
    have c1 : ¬(48 ≤ 87 + n ∧ 87 + n ≤ 57) := by omega
    have c2 : 97 ≤ 87 + n ∧ 87 + n ≤ 102 := by omega
    simp [hexDig, h10, hexVal, ht, c1, c2]

/-! ### String escaping round trip -/

theorem pe_u_small (h1 h2 h3 h4 : Char) (t : Nat) (r2 : List Char)
    (hx : hex4 h1 h2 h3 h4 = some t) (ht : t < 0xD800) :
    parseEscape ('u' :: h1 :: h2 :: h3 :: h4 :: r2) = some (Char.ofNat t, r2) := by
  have hs1 : ¬(0xDC00 ≤ t ∧ t ≤ 0xDFFF) := by omega
  have hs2 : ¬(0xD800 ≤ t ∧ t ≤ 0xDBFF) := by omega
  simp [parseEscape, hx, hs1, hs2]

theorem parseStringBody_escape (cs : List Char) (rest : List Char) :
    ∀ fuel, cs.length + 1 ≤ fuel →
      parseStringBody fuel (escapeList cs ++ '"' :: rest) = some (cs, rest) := by
  induction cs with
  | nil =>
    intro fuel hf
    cases fuel with
    | zero => omega
    | succ f => simp [escapeList, parseStringBody]
  | cons c cs ih =>
    intro fuel hf
    cases fuel with
    | zero => omega
    | succ f =>
      have hf' : cs.length + 1 ≤ f := by simp at hf; omega
      rw [escapeList, List.append_assoc]
      by_cases hq : c = '"'
      · subst hq
        simp [escapeChar, parseStringBody, parseEscape, ih f hf']
      · by_cases hbs : c = '\\'
        · subst hbs
          simp [escapeChar, parseStringBody, parseEscape, ih f hf']
        · by_cases hctl : c.toNat < 0x20
          · by_cases h8 : c.toNat = 8
            · have hc : Char.ofNat 8 = c :=
                char_eq_of_toNat_eq _ _ (by rw [char_toNat_ofNat_small 8 (by omega), h8])
              simp [escapeChar, hq, hbs, hctl, h8, parseStringBody, parseEscape,
                ih f hf', hc] <;> exact hc
            · by_cases h9 : c.toNat = 9
              · have hc : Char.ofNat 9 = c :=
                  char_eq_of_toNat_eq _ _ (by rw [char_toNat_ofNat_small 9 (by omega), h9])
                simp [escapeChar, hq, hbs, hctl, h8, h9, parseStringBody, parseEscape,
                  ih f hf', hc] <;> exact hc
              · by_cases h10 : c.toNat = 10
                · have hc : Char.ofNat 10 = c :=
                    char_eq_of_toNat_eq _ _
                      (by rw [char_toNat_ofNat_small 10 (by omega), h10])
                  simp [escapeChar, hq, hbs, hctl, h8, h9, h10, parseStringBody,
                    parseEscape, ih f hf', hc] <;> exact hc
                · by_cases h12 : c.toNat = 12
                  · have hc : Char.ofNat 12 = c :=
                      char_eq_of_toNat_eq _ _
                        (by rw [char_toNat_ofNat_small 12 (by omega), h12])
                    simp [escapeChar, hq, hbs, hctl, h8, h9, h10, h12, parseStringBody,
                      parseEscape, ih f hf', hc] <;> exact hc
                  · by_cases h13 : c.toNat = 13
                    · have hc : Char.ofNat 13 = c :=
                        char_eq_of_toNat_eq _ _
                          (by rw [char_toNat_ofNat_small 13 (by omega), h13])
                      simp [escapeChar, hq, hbs, hctl, h8, h9, h10, h12, h13,
                        parseStringBody, parseEscape, ih f hf', hc] <;> exact hc
                    · have e1 : hexVal (hexDig (c.toNat / 16)) = some (c.toNat / 16) :=
                        hexVal_hexDig _ (by omega)
                      have e2 : hexVal (hexDig (c.toNat % 16)) = some (c.toNat % 16) :=
                        hexVal_hexDig _ (by omega)
                      have hx : hex4 '0' '0' (hexDig (c.toNat / 16)) (hexDig (c.toNat % 16))
                          = some c.toNat := by
                        have e0 : hexVal '0' = some 0 := rfl
                        have hv : c.toNat / 16 * 16 + c.toNat % 16 = c.toNat := by omega
                        simp [hex4, e0, e1, e2, hv]
                      have hpe := pe_u_small '0' '0' (hexDig (c.toNat / 16))
                        (hexDig (c.toNat % 16)) c.toNat
                        (escapeList cs ++ '"' :: rest) hx (by omega)
                      simp [escapeChar, hq, hbs, hctl, h8, h9, h10, h12, h13,
                        parseStringBody, hpe, ih f hf']
          · simp [escapeChar, hq, hbs, hctl, parseStringBody, ih f hf']

/-! ### Number printing round trip -/

theorem goodRest_takeWhile_shape (rest : List Char) (hrest : goodRest rest) :
    rest = [] ∨ ∃ y ys', rest = y :: ys' ∧ y.isDigit = false := by
  rcases goodRest_shape rest hrest with rfl | ⟨c, cs, rfl, hdig, _⟩
  · exact Or.inl rfl
  · exact Or.inr ⟨c, cs, rfl, hdig⟩

theorem numFinish_goodRest_pos (fc : FloatFns) (n : Nat) (intCs : List Char)
    (rest : List Char) (hrest : goodRest rest) (hn : n < u64Size) :
    numFinish fc false n intCs rest = some (.posInt n, rest) := by
  simp [numFinish, lexNumTail_goodRest rest hrest, hn]

theorem numFinish_goodRest_neg (fc : FloatFns) (n : Nat) (intCs : List Char)
    (rest : List Char) (hrest : goodRest rest) (h1 : 1 ≤ n) (h2 : n ≤ i64MagMax) :
    numFinish fc true n intCs rest = some (.negInt (-(n : Int)), rest) := by
  simp [numFinish, lexNumTail_goodRest rest hrest, h1, h2]

theorem natToDigits_zero : natToDigits 0 = ['0'] := by
  rw [natToDigits]
  norm_num
  rfl

theorem parseNumCore_digits (fc : FloatFns) (neg : Bool) (n : Nat)
    (rest : List Char) (hrest : goodRest rest) :
    parseNumCore fc neg (natToDigits n ++ rest) =
      numFinish fc neg n (natToDigits n) rest := by
  rcases he : natToDigits n with _ | ⟨d, ds⟩
  · exact absurd he (natToDigits_ne_nil n)
  have hd : d.isDigit = true := natToDigits_all_digits n d (by rw [he]; simp)
  by_cases h0 : d = '0'
  · have hn0 : n = 0 := by
      by_contra hne
      exact natToDigits_head_pos n (by omega) d ds he h0
    subst hn0
    have hds : ds = [] := by
      have := natToDigits_zero
      rw [he] at this
      simp at this
      exact this.2
    subst hds
    subst h0
    simp only [List.cons_append, List.nil_append]
    rw [parseNumCore.eq_def]
    simp only [if_pos rfl]
    rcases goodRest_takeWhile_shape rest hrest with rfl | ⟨y, ys', rfl, hy⟩
    · rfl
    · simp only [hy]
      simp
  · simp only [List.cons_append]
    rw [parseNumCore.eq_def]
    simp only [if_neg h0, if_pos hd]
    have hall : ∀ x ∈ ds, x.isDigit = true := fun x hx =>
      natToDigits_all_digits n x (by rw [he]; simp [hx])
    have htake := takeWhile_append_all Char.isDigit ds rest hall
      (goodRest_takeWhile_shape rest hrest)
    rw [htake.1, htake.2]
    have hval : digitsToNat (d :: ds) = n := by
      rw [← he]; exact digitsToNat_natToDigits n
    rw [hval]

theorem parseNumber_digits (fc : FloatFns) (n : Nat) (rest : List Char) :
    parseNumber fc (natToDigits n ++ rest) =
      parseNumCore fc false (natToDigits n ++ rest) := by
  rcases he : natToDigits n with _ | ⟨d, ds⟩
  · exact absurd he (natToDigits_ne_nil n)
  have hd : d.isDigit = true := natToDigits_all_digits n d (by rw [he]; simp)
  have hdm : d ≠ '-' := by
    intro h
    rw [charIsDigit_iff] at hd
    rw [h] at hd
    have : ('-' : Char).toNat = 45 := rfl
    omega
  simp only [List.cons_append]
  rw [parseNumber]
  rw [if_neg hdm]

theorem parseNumber_posInt (fc : FloatFns) (n : Nat) (rest : List Char)
    (hn : n < u64Size) (hrest : goodRest rest) :
    parseNumber fc (natToDigits n ++ rest) = some (.posInt n, rest) := by
  rw [parseNumber_digits, parseNumCore_digits fc false n rest hrest,
    numFinish_goodRest_pos fc n _ rest hrest hn]

theorem parseNumber_negInt (fc : FloatFns) (i : Int) (rest : List Char)
    (hlo : -(i64MagMax : Int) ≤ i) (hneg : i < 0) (hrest : goodRest rest) :
    parseNumber fc ('-' :: (natToDigits i.natAbs ++ rest)) =
      some (.negInt i, rest) := by
  have hm : i64MagMax = 9223372036854775808 := rfl
  have h2 : i.natAbs ≤ i64MagMax := by
    rw [hm] at hlo ⊢
    omega
  rw [parseNumber]
  rw [if_pos rfl, parseNumCore_digits fc true i.natAbs rest hrest,
    numFinish_goodRest_neg fc i.natAbs _ rest hrest (by omega) h2]
  have hni : -((i.natAbs : Nat) : Int) = i := by omega
  rw [hni]

/-! ### Heads of printed values, and parse fuel accounting -/

/-- The ryu/strtod round-trip contract for one double: its printed literal
starts like a number token, and the number parser reads it back to exactly
that double.  This is the documented guarantee of serde_json's float layer,
taken as a hypothesis wherever a float leaf is round-tripped. -/
def litOk (fc : FloatFns) (f : F64) : Prop :=
  (∃ c cs, (fc.lit f).data = c :: cs ∧ (c = '-' ∨ c.isDigit = true)) ∧
  ∀ rest, goodRest rest →
    parseNumber fc ((fc.lit f).data ++ rest) = some (.float f, rest)

/-- The characters a serialized value can start with. -/
def headOk (c : Char) : Prop :=
  c = 'n' ∨ c = 't' ∨ c = 'f' ∨ c = '"' ∨ c = '[' ∨ c = lbrace ∨
    c = '-' ∨ c.isDigit = true

theorem headOk_facts (c : Char) (h : headOk c) :
    ¬(c = ' ' ∨ c = '\t' ∨ c = '\n' ∨ c = '\r') ∧ c ≠ ']' ∧ c ≠ rbrace := by
  rcases h with rfl | rfl | rfl | rfl | rfl | rfl | rfl | hd
  · exact ⟨by decide, by decide, by decide⟩
  · exact ⟨by decide, by decide, by decide⟩
  · exact ⟨by decide, by decide, by decide⟩
  · exact ⟨by decide, by decide, by decide⟩
  · exact ⟨by decide, by decide, by decide⟩
  · exact ⟨by decide, by decide, by decide⟩
  · exact ⟨by decide, by decide, by decide⟩
  · rw [charIsDigit_iff] at hd
    refine ⟨?_, ?_, ?_⟩
    · rintro (rfl | rfl | rfl | rfl)
      · have h1 : (' ' : Char).toNat = 32 := rfl
        omega
      · have h1 : ('\t' : Char).toNat = 9 := rfl
        omega
      · have h1 : ('\n' : Char).toNat = 10 := rfl
        omega
      · have h1 : ('\r' : Char).toNat = 13 := rfl
        omega
    · intro rfl'
      rw [rfl'] at hd
      have : (']' : Char).toNat = 93 := rfl
      omega
    · intro rfl'
      rw [rfl'] at hd
      have : rbrace.toNat = 125 := char_toNat_ofNat_small 125 (by omega)
      omega

theorem skipWs_not_ws (c : Char) (cs : List Char)
    (h : ¬(c = ' ' ∨ c = '\t' ∨ c = '\n' ∨ c = '\r')) :
    skipWs (c :: cs) = c :: cs := by
  rw [skipWs]
  simp [h]

theorem printJ_head (fc : FloatFns) (v : JValue)
    (hfl : ∀ f ∈ v.floats, litOk fc f) :
    ∃ c cs, printJ fc v = c :: cs ∧ headOk c := by
  cases v with
  | null => exact ⟨'n', _, rfl, Or.inl rfl⟩
  | bool b =>
    cases b
    · exact ⟨'f', _, rfl, Or.inr (Or.inr (Or.inl rfl))⟩
    · exact ⟨'t', _, rfl, Or.inr (Or.inl rfl)⟩
  | num nm =>
    rcases nm with n | i | f
    · rcases he : natToDigits n with _ | ⟨d, ds⟩
      · exact absurd he (natToDigits_ne_nil n)
      · refine ⟨d, ds, ?_, ?_⟩
        · simp only [printJ, printNum, he]
        · exact Or.inr (Or.inr (Or.inr (Or.inr (Or.inr (Or.inr (Or.inr
            (natToDigits_all_digits n d (by rw [he]; simp))))))))
    · exact ⟨'-', _, rfl, Or.inr (Or.inr (Or.inr (Or.inr (Or.inr (Or.inr
        (Or.inl rfl))))))⟩
    · obtain ⟨⟨c, cs, hlit, hc⟩, _⟩ := hfl f (by simp [JValue.floats])
      refine ⟨c, cs, ?_, ?_⟩
      · simp only [printJ, printNum, hlit]
      · rcases hc with rfl | hd
        · exact Or.inr (Or.inr (Or.inr (Or.inr (Or.inr (Or.inr (Or.inl rfl))))))
        · exact Or.inr (Or.inr (Or.inr (Or.inr (Or.inr (Or.inr (Or.inr hd))))))
  | str s => exact ⟨'"', _, rfl, Or.inr (Or.inr (Or.inr (Or.inl rfl)))⟩
  | arr xs => exact ⟨'[', _, rfl, Or.inr (Or.inr (Or.inr (Or.inr (Or.inl rfl))))⟩
  | obj kvs =>
    exact ⟨lbrace, _, rfl, Or.inr (Or.inr (Or.inr (Or.inr (Or.inr (Or.inl rfl)))))⟩

theorem escapeChar_length_pos (c : Char) : 1 ≤ (escapeChar c).length := by
  rw [escapeChar]
  split_ifs <;> simp

theorem escapeList_length (cs : List Char) :
    cs.length ≤ (escapeList cs).length := by
  induction cs with
  | nil => simp [escapeList]
  | cons c cs ih =>
    rw [escapeList]
    simp only [List.length_append, List.length_cons]
    have := escapeChar_length_pos c
    omega

mutual

/-- Enough parser fuel to read back the serialization of a value. -/
def fcount : JValue → Nat
  | .null => 1
  | .bool _ => 1
  | .num _ => 1
  | .str s => 2 + s.data.length
  | .arr xs => 1 + fcountElems xs
  | .obj kvs => 1 + fcountMems kvs

/-- Fuel for the element loop of an array. -/
def fcountElems : List JValue → Nat
  | [] => 0
  | x :: xs => 1 + max (fcount x) (fcountElems xs)

/-- Fuel for the member loop of an object. -/
def fcountMems : List (String × JValue) → Nat
  | [] => 0
  | (k, v) :: m => 2 + k.data.length + max (fcount v) (fcountMems m)

end

mutual

theorem fcount_le (fc : FloatFns) (v : JValue) :
    fcount v ≤ (printJ fc v).length + 1 := by
  cases v with
  | null => simp [fcount, printJ]
  | bool b => cases b <;> simp [fcount, printJ]
  | num nm => simp [fcount]
  | str s =>
    have := escapeList_length s.data
    simp only [fcount, printJ, printStr, List.length_cons, List.length_append]
    omega
  | arr xs =>
    have := fcountElems_le fc xs
    simp only [fcount, printJ, List.length_cons, List.length_append]
    omega
  | obj kvs =>
    have := fcountMems_le fc kvs
    simp only [fcount, printJ, List.length_cons, List.length_append]
    omega

theorem fcountElems_le (fc : FloatFns) (xs : List JValue) :
    fcountElems xs ≤ (printElems fc xs).length + 2 := by
  match xs with
  | [] => simp [fcountElems]
  | [x] =>
    have := fcount_le fc x
    simp only [fcountElems, printElems, Nat.max_zero, fcount]
    omega
  | x :: y :: ys =>
    have h1 := fcount_le fc x
    have h2 := fcountElems_le fc (y :: ys)
    simp only [fcountElems, printElems, List.length_append, List.length_cons] at h2 ⊢
    omega

theorem fcountMems_le (fc : FloatFns) (kvs : List (String × JValue)) :
    fcountMems kvs ≤ (printMems fc kvs).length + 1 := by
  match kvs with
  | [] => simp [fcountMems]
  | [(k, v)] =>
    have h1 := fcount_le fc v
    have h2 := escapeList_length k.data
    simp only [fcountMems, printMems, printStr, List.length_append,
      List.length_cons, Nat.max_zero, fcountMems]
    omega
  | (k, v) :: m :: ms =>
    have h1 := fcount_le fc v
    have h2 := escapeList_length k.data
    have h3 := fcountMems_le fc (m :: ms)
    simp only [fcountMems, printMems, printStr, List.length_append,
      List.length_cons] at h3 ⊢
    omega

end

/-! ### Sorted-insertion lemmas for object members -/

theorem keyLtL_irrefl (as : List Char) : keyLtL as as = false := by
  induction as with
  | nil => rfl
  | cons a as ih => simp [keyLtL, ih]

theorem keyLtL_asymm (as : List Char) :
    ∀ bs, keyLtL as bs = true → keyLtL bs as = false := by
  induction as with
  | nil =>
    intro bs h
    cases bs with
    | nil => simp [keyLtL] at h
    | cons b bs => simp [keyLtL]
  | cons a as ih =>
    intro bs h
    cases bs with
    | nil => simp [keyLtL] at h
    | cons b bs =>
      rw [keyLtL] at h ⊢
      by_cases h1 : a.toNat < b.toNat
      · have h2 : ¬(b.toNat < a.toNat) := by omega
        simp [h1, h2]
      · by_cases h2 : b.toNat < a.toNat
        · simp [h1, h2] at h
        · simp [h1, h2] at h ⊢
          exact ih bs h

theorem keyLt_asymm (a b : String) (h : keyLt a b = true) : keyLt b a = false :=
  keyLtL_asymm a.data b.data h

theorem keyLt_ne (a b : String) (h : keyLt a b = true) : a ≠ b := by
  intro rfl'
  rw [rfl'] at h
  rw [keyLt, keyLtL_irrefl] at h
  cases h

theorem insertSorted_append (k : String) (v : JValue) :
    ∀ m, (∀ p ∈ m, keyLt p.1 k = true) → insertSorted k v m = m ++ [(k, v)] := by
  intro m
  induction m with
  | nil => intro _; rfl
  | cons p m ih =>
    intro hall
    obtain ⟨k', v'⟩ := p
    have hk' : keyLt k' k = true := hall (k', v') (by simp)
    have h1 : keyLt k k' = false := keyLt_asymm k' k hk'
    have h2 : k ≠ k' := fun he => keyLt_ne k' k hk' he.symm
    rw [insertSorted]
    simp only [h1, Bool.false_eq_true, if_false, if_neg h2]
    rw [ih (fun q hq => hall q (by simp [hq]))]
    simp

/-! ### Helper steps for the master parse–print theorem -/

theorem digit_dispatch (c : Char) (h : c = '-' ∨ c.isDigit = true) :
    c ≠ 'n' ∧ c ≠ 't' ∧ c ≠ 'f' ∧ c ≠ '"' ∧ c ≠ '[' ∧ c ≠ lbrace := by
  rcases h with rfl | hd
  · exact ⟨by decide, by decide, by decide, by decide, by decide, by decide⟩
  · rw [charIsDigit_iff] at hd
    refine ⟨?_, ?_, ?_, ?_, ?_, ?_⟩ <;> intro he <;> rw [he] at hd
    · have : ('n' : Char).toNat = 110 := rfl
      omega
    · have : ('t' : Char).toNat = 116 := rfl
      omega
    · have : ('f' : Char).toNat = 102 := rfl
      omega
    · have : ('"' : Char).toNat = 34 := rfl
      omega
    · have : ('[' : Char).toNat = 91 := rfl
      omega
    · have : lbrace.toNat = 123 := char_toNat_ofNat_small 123 (by omega)
      omega

theorem printNum_head (fc : FloatFns) (nm : JNumber)
    (hfl : ∀ f, nm = .float f → litOk fc f) :
    ∃ c cs, printNum fc nm = c :: cs ∧ (c = '-' ∨ c.isDigit = true) := by
  rcases nm with n | i | f
  · rcases he : natToDigits n with _ | ⟨d, ds⟩
    · exact absurd he (natToDigits_ne_nil n)
    · exact ⟨d, ds, by simp [printNum, he],
        Or.inr (natToDigits_all_digits n d (by rw [he]; simp))⟩
  · exact ⟨'-', _, rfl, Or.inl rfl⟩
  · obtain ⟨⟨c, cs, hlit, hc⟩, _⟩ := hfl f rfl
    exact ⟨c, cs, by simp [printNum, hlit], hc⟩

theorem parseNumber_printNum (fc : FloatFns) (nm : JNumber) (hwf : nm.wfb = true)
    (hfl : ∀ f, nm = .float f → litOk fc f) (rest : List Char)
    (hrest : goodRest rest) :
    parseNumber fc (printNum fc nm ++ rest) = some (nm, rest) := by
  rcases nm with n | i | f
  · have hn : n < u64Size := by simpa [JNumber.wfb] using hwf
    simpa [printNum] using parseNumber_posInt fc n rest hn hrest
  · have hw : -(i64MagMax : Int) ≤ i ∧ i < 0 := by
      simpa [JNumber.wfb] using hwf
    simpa [printNum] using parseNumber_negInt fc i rest hw.1 hw.2 hrest
  · exact (hfl f rfl).2 rest hrest

theorem printElems_decomp (fc : FloatFns) (x : JValue) (xs : List JValue) :
    ∃ t, printElems fc (x :: xs) = printJ fc x ++ t ∧
      (t = [] ∨ ∃ t', t = ',' :: t') := by
  cases xs with
  | nil => exact ⟨[], by simp [printElems], Or.inl rfl⟩
  | cons y ys => exact ⟨',' :: printElems fc (y :: ys), rfl, Or.inr ⟨_, rfl⟩⟩

theorem skipWs_printJ (fc : FloatFns) (v : JValue)
    (hfl : ∀ f ∈ v.floats, litOk fc f) (t : List Char) :
    skipWs (printJ fc v ++ t) = printJ fc v ++ t := by
  obtain ⟨c, cs, hp, hc⟩ := printJ_head fc v hfl
  rw [hp, List.cons_append]
  exact skipWs_not_ws c _ (headOk_facts c hc).1

theorem skipWs_colon (r : List Char) : skipWs (':' :: r) = ':' :: r :=
  skipWs_not_ws ':' r (by decide)

theorem skipWs_comma (r : List Char) : skipWs (',' :: r) = ',' :: r :=
  skipWs_not_ws ',' r (by decide)

theorem skipWs_rbrace2 (r : List Char) : skipWs (rbrace :: r) = rbrace :: r :=
  skipWs_not_ws rbrace r (by decide)

theorem skipWs_rbracket2 (r : List Char) : skipWs (']' :: r) = ']' :: r :=
  skipWs_not_ws ']' r (by decide)

theorem printMems_quote (fc : FloatFns) (m : String × JValue)
    (ms : List (String × JValue)) :
    ∃ t, printMems fc (m :: ms) = '"' :: t := by
  obtain ⟨k, v⟩ := m
  cases ms with
  | nil => exact ⟨_, rfl⟩
  | cons m' ms' => exact ⟨_, rfl⟩

theorem parseValue_lbracket (fc : FloatFns) (f d : Nat) (r : List Char) :
    parseValue fc (f + 1) d ('[' :: r) =
      (if d - 1 = 0 then none
       else
         match skipWs r with
         | [] => none
         | c2 :: r2 =>
           if c2 = ']' then some (.arr [], r2)
           else
             match parseElems fc f (d - 1) (c2 :: r2) with
             | some (xs, r3) => some (.arr xs, r3)
             | none => none) := by
  simp [parseValue]

theorem parseValue_lbrace (fc : FloatFns) (f d : Nat) (r : List Char) :
    parseValue fc (f + 1) d (lbrace :: r) =
      (if d - 1 = 0 then none
       else
         match skipWs r with
         | [] => none
         | c2 :: r2 =>
           if c2 = rbrace then some (.obj [], r2)
           else
             match parseMems fc f (d - 1) [] (c2 :: r2) with
             | some (kvs, r3) => some (.obj kvs, r3)
             | none => none) := by
  have h1 : ¬lbrace = 'n' := by decide
  have h2 : ¬lbrace = 't' := by decide
  have h3 : ¬lbrace = 'f' := by decide
  have h4 : ¬lbrace = '"' := by decide
  have h5 : ¬lbrace = '[' := by decide
  simp [parseValue, h1, h2, h3, h4, h5]

theorem parseElems_step (fc : FloatFns) (f d : Nat) (s : List Char) :
    parseElems fc (f + 1) d s =
      (match parseValue fc f d s with
       | none => none
       | some (v, r) =>
         match skipWs r with
         | [] => none
         | c :: r2 =>
           if c = ',' then
             match parseElems fc f d (skipWs r2) with
             | some (vs, r3) => some (v :: vs, r3)
             | none => none
           else if c = ']' then some ([v], r2)
           else none) := by
  simp only [parseElems]

theorem parseMems_step (fc : FloatFns) (f d : Nat)
    (acc : List (String × JValue)) (c : Char) (r : List Char) :
    parseMems fc (f + 1) d acc (c :: r) =
      (if c = '"' then
        match parseStringBody f r with
        | none => none
        | some (kcs, r1) =>
          match skipWs r1 with
          | [] => none
          | c2 :: r2 =>
            if c2 = ':' then
              match parseValue fc f d (skipWs r2) with
              | none => none
              | some (v, r3) =>
                match skipWs r3 with
                | [] => none
                | c3 :: r4 =>
                  if c3 = ',' then
                    parseMems fc f d (insertSorted (String.mk kcs) v acc) (skipWs r4)
                  else if c3 = rbrace then
                    some (insertSorted (String.mk kcs) v acc, r4)
                  else none
            else none
      else none) := by
  simp only [parseMems]

/-! ### The master theorem: parsing a printed value gives it back -/

mutual

theorem parse_print (fc : FloatFns) (v : JValue) :
    v.wfb = true → (∀ fl ∈ v.floats, litOk fc fl) →
    ∀ fuel d rest, fcount v ≤ fuel → v.jdepth < d → goodRest rest →
      parseValue fc fuel d (printJ fc v ++ rest) = some (v, rest) := by
  intro hwf hfl fuel d rest hfuel hdep hrest
  cases v with
  | null =>
    cases fuel with
    | zero => simp [fcount] at hfuel
    | succ f => simp [printJ, parseValue]
  | bool b =>
    cases fuel with
    | zero => simp [fcount] at hfuel
    | succ f => cases b <;> simp [printJ, parseValue]
  | num nm =>
    cases fuel with
    | zero => simp [fcount] at hfuel
    | succ f =>
      have hwfn : nm.wfb = true := by simpa [JValue.wfb] using hwf
      have hfln : ∀ fl, nm = .float fl → litOk fc fl := by
        intro fl hfl'
        subst hfl'
        exact hfl fl (by simp [JValue.floats])
      obtain ⟨c, cs, hp, hc⟩ := printNum_head fc nm hfln
      have hd := digit_dispatch c hc
      have hpj : printJ fc (.num nm) = printNum fc nm := by simp [printJ]
      rw [hpj, hp, List.cons_append]
      simp only [parseValue]
      rw [if_neg hd.1, if_neg hd.2.1, if_neg hd.2.2.1, if_neg hd.2.2.2.1,
        if_neg hd.2.2.2.2.1, if_neg hd.2.2.2.2.2, if_pos hc,
        ← List.cons_append, ← hp,
        parseNumber_printNum fc nm hwfn hfln rest hrest]
  | str s =>
    cases fuel with
    | zero => simp [fcount] at hfuel
    | succ f =>
      have hslen : s.data.length + 1 ≤ f := by
        have hsd : s.data.length = s.length := rfl
        simp [fcount] at hfuel
        omega
      have hps := parseStringBody_escape s.data rest f hslen
      have hpj : printJ fc (.str s) ++ rest
          = '"' :: (escapeList s.data ++ '"' :: rest) := by
        simp [printJ, printStr]
      rw [hpj]
      simp only [parseValue]
      simp [hps, string_mk_data]
  | arr xs =>
    cases fuel with
    | zero => simp [fcount] at hfuel
    | succ f =>
      cases xs with
      | nil =>
        have hd1 : ¬(d - 1 = 0) := by
          simp [JValue.jdepth, JValue.jdepthList] at hdep
          omega
        have hpj : printJ fc (.arr []) ++ rest = '[' :: ']' :: rest := by
          simp [printJ, printElems]
        rw [hpj]
        simp only [parseValue]
        simp [hd1, skipWs]
      | cons x xs' =>
        have hwfl : JValue.wfbList (x :: xs') = true := by
          simpa [JValue.wfb] using hwf
        have hfll : ∀ fl ∈ JValue.floatsList (x :: xs'), litOk fc fl := by
          intro fl hf
          exact hfl fl (by simpa [JValue.floats] using hf)
        have hfel : fcountElems (x :: xs') ≤ f := by
          simp [fcount] at hfuel
          omega
        have hdel : JValue.jdepthList (x :: xs') < d - 1 := by
          simp [JValue.jdepth] at hdep
          omega
        have hd1 : ¬(d - 1 = 0) := by omega
        have hflx : ∀ fl ∈ x.floats, litOk fc fl := by
          intro fl hf
          exact hfll fl (by simp [JValue.floatsList, hf])
        obtain ⟨t, hdec, _⟩ := printElems_decomp fc x xs'
        obtain ⟨c, cs, hpx, hcx⟩ := printJ_head fc x hflx
        have hcne : c ≠ ']' := (headOk_facts c hcx).2.1
        have hin : printElems fc (x :: xs') ++ ']' :: rest
            = c :: (cs ++ (t ++ ']' :: rest)) := by
          rw [hdec, hpx]
          simp
        have hskip : skipWs (printElems fc (x :: xs') ++ ']' :: rest)
            = printElems fc (x :: xs') ++ ']' :: rest := by
          rw [hdec, List.append_assoc]
          exact skipWs_printJ fc x hflx _
        have hpj : printJ fc (.arr (x :: xs')) ++ rest
            = '[' :: (printElems fc (x :: xs') ++ ']' :: rest) := by
          simp [printJ]
        rw [hpj, parseValue_lbracket, if_neg hd1, hskip, hin]
        simp only []
        rw [if_neg hcne, ← hin,
          parse_print_elems fc x xs' hwfl hfll f (d - 1) rest hfel hdel hrest]
  | obj kvs =>
    cases fuel with
    | zero => simp [fcount] at hfuel
    | succ f =>
      cases kvs with
      | nil =>
        have hd1 : ¬(d - 1 = 0) := by
          simp [JValue.jdepth, JValue.jdepthMems] at hdep
          omega
        have hpj : printJ fc (.obj []) ++ rest = lbrace :: rbrace :: rest := by
          simp [printJ, printMems]
        rw [hpj, parseValue_lbrace, if_neg hd1, skipWs_rbrace2]
        simp
      | cons m ms =>
        have hwfm : JValue.wfbMems (m :: ms) = true := by
          simpa [JValue.wfb] using hwf
        have hflm : ∀ fl ∈ JValue.floatsMems (m :: ms), litOk fc fl := by
          intro fl hf
          exact hfl fl (by simpa [JValue.floats] using hf)
        have hfem : fcountMems (m :: ms) ≤ f := by
          simp [fcount] at hfuel
          omega
        have hdem : JValue.jdepthMems (m :: ms) < d - 1 := by
          simp [JValue.jdepth] at hdep
          omega
        have hd1 : ¬(d - 1 = 0) := by omega
        obtain ⟨t, hq⟩ := printMems_quote fc m ms
        have hskip : skipWs (printMems fc (m :: ms) ++ rbrace :: rest)
            = printMems fc (m :: ms) ++ rbrace :: rest := by
          rw [hq, List.cons_append]
          exact skipWs_not_ws '"' _ (by decide)
        have hin : printMems fc (m :: ms) ++ rbrace :: rest
            = '"' :: (t ++ rbrace :: rest) := by
          rw [hq]
          simp
        have hpj : printJ fc (.obj (m :: ms)) ++ rest
            = lbrace :: (printMems fc (m :: ms) ++ rbrace :: rest) := by
          simp [printJ]
        have hcall : parseMems fc f (d - 1) []
            (printMems fc (m :: ms) ++ rbrace :: rest)
            = some ([] ++ m :: ms, rest) :=
          parse_print_mems fc m.1 m.2 ms hwfm hflm [] f (d - 1) rest (by simp)
            hfem hdem hrest
        rw [hpj, parseValue_lbrace, if_neg hd1, hskip, hin]
        simp only []
        rw [if_neg (by decide : ¬('"' : Char) = rbrace), ← hin, hcall]
        simp
  termination_by sizeOf v
  decreasing_by all_goals (subst_vars; simp_arith [Prod.mk.eta])

theorem parse_print_elems (fc : FloatFns) (x : JValue) (xs : List JValue) :
    JValue.wfbList (x :: xs) = true →
    (∀ fl ∈ JValue.floatsList (x :: xs), litOk fc fl) →
    ∀ fuel d rest, fcountElems (x :: xs) ≤ fuel →
      JValue.jdepthList (x :: xs) < d → goodRest rest →
      parseElems fc fuel d (printElems fc (x :: xs) ++ ']' :: rest)
        = some (x :: xs, rest) := by
  intro hwf hfl fuel d rest hfuel hdep hrest
  cases fuel with
  | zero => simp [fcountElems] at hfuel
  | succ f =>
    have hwfx : x.wfb = true := by
      simp [JValue.wfbList, Bool.and_eq_true] at hwf
      exact hwf.1
    have hflx : ∀ fl ∈ x.floats, litOk fc fl := by
      intro fl hf
      exact hfl fl (by simp [JValue.floatsList, hf])
    have hfcx : fcount x ≤ f := by
      simp [fcountElems] at hfuel
      omega
    have hdx : x.jdepth < d := by
      simp [JValue.jdepthList] at hdep
      omega
    cases xs with
    | nil =>
      have hpe : printElems fc [x] ++ ']' :: rest = printJ fc x ++ ']' :: rest := by
        simp [printElems]
      rw [hpe, parseElems_step,
        parse_print fc x hwfx hflx f d (']' :: rest) hfcx hdx
          (goodRest_rbracket rest)]
      simp [skipWs_rbracket2]
    | cons y ys =>
      have hwfl : JValue.wfbList (y :: ys) = true := by
        simp [JValue.wfbList, Bool.and_eq_true] at hwf ⊢
        exact hwf.2
      have hfll : ∀ fl ∈ JValue.floatsList (y :: ys), litOk fc fl := by
        intro fl hf
        exact hfl fl (by simp [JValue.floatsList] at hf ⊢; exact Or.inr hf)
      have hfel : fcountElems (y :: ys) ≤ f := by
        simp [fcountElems] at hfuel ⊢
        omega
      have hdel : JValue.jdepthList (y :: ys) < d := by
        simp [JValue.jdepthList] at hdep ⊢
        omega
      have hfly : ∀ fl ∈ y.floats, litOk fc fl := by
        intro fl hf
        exact hfll fl (by simp [JValue.floatsList, hf])
      have hpe : printElems fc (x :: y :: ys) ++ ']' :: rest
          = printJ fc x ++ ',' :: (printElems fc (y :: ys) ++ ']' :: rest) := by
        simp [printElems]
      rw [hpe, parseElems_step,
        parse_print fc x hwfx hflx f d
          (',' :: (printElems fc (y :: ys) ++ ']' :: rest)) hfcx hdx
          (goodRest_comma _)]
      simp only [skipWs_comma, if_true]
      obtain ⟨t, hdec, _⟩ := printElems_decomp fc y ys
      have hskip : skipWs (printElems fc (y :: ys) ++ ']' :: rest)
          = printElems fc (y :: ys) ++ ']' :: rest := by
        rw [hdec, List.append_assoc]
        exact skipWs_printJ fc y hfly _
      rw [hskip, parse_print_elems fc y ys hwfl hfll f d rest hfel hdel hrest]
  termination_by sizeOf (x :: xs)

theorem parse_print_mems (fc : FloatFns) (k : String) (v : JValue)
    (ms : List (String × JValue)) :
    JValue.wfbMems ((k, v) :: ms) = true →
    (∀ fl ∈ JValue.floatsMems ((k, v) :: ms), litOk fc fl) →
    ∀ acc fuel d rest,
      (∀ p ∈ acc, ∀ q ∈ (k, v) :: ms, keyLt p.1 q.1 = true) →
      fcountMems ((k, v) :: ms) ≤ fuel → JValue.jdepthMems ((k, v) :: ms) < d →
      goodRest rest →
      parseMems fc fuel d acc (printMems fc ((k, v) :: ms) ++ rbrace :: rest)
        = some (acc ++ (k, v) :: ms, rest) := by
  intro hwf hfl acc fuel d rest hacc hfuel hdep hrest
  cases fuel with
  | zero => simp [fcountMems] at hfuel
  | succ f =>
    have hwfv : v.wfb = true := by
      simp [JValue.wfbMems, Bool.and_eq_true] at hwf
      exact hwf.1.1
    have hkeylt : ∀ q ∈ ms, keyLt k q.1 = true := by
      have h := hwf
      simp only [JValue.wfbMems, Bool.and_eq_true] at h
      have h2 := h.1.2
      rw [List.all_eq_true] at h2
      intro q hq
      simpa using h2 q hq
    have hwfms : JValue.wfbMems ms = true := by
      simp [JValue.wfbMems, Bool.and_eq_true] at hwf
      exact hwf.2
    have hflv : ∀ fl ∈ v.floats, litOk fc fl := by
      intro fl hf
      exact hfl fl (by simp [JValue.floatsMems, hf])
    have hklen : k.data.length + 1 ≤ f := by
      have hsd : k.data.length = k.length := rfl
      simp [fcountMems] at hfuel
      omega
    have hfcv : fcount v ≤ f := by
      simp [fcountMems] at hfuel
      omega
    have hdv : v.jdepth < d := by
      simp [JValue.jdepthMems] at hdep
      omega
    have hps := parseStringBody_escape k.data
    have hins : insertSorted (String.mk k.data) v acc = acc ++ [(k, v)] := by
      rw [string_mk_data]
      exact insertSorted_append k v acc
        (fun p hp => hacc p hp (k, v) (by simp))
    cases ms with
    | nil =>
      have hpm : printMems fc [(k, v)] ++ rbrace :: rest
          = '"' :: (escapeList k.data ++ '"' ::
              (':' :: (printJ fc v ++ rbrace :: rest))) := by
        simp [printMems, printStr]
      rw [hpm, parseMems_step, if_pos rfl, hps _ f hklen]
      simp only [skipWs_colon, if_true]
      rw [skipWs_printJ fc v hflv _,
        parse_print fc v hwfv hflv f d (rbrace :: rest) hfcv hdv
          (goodRest_rbrace rest)]
      have hm1 : rbrace ≠ ',' := by decide
      simp [skipWs_rbrace2, hm1, hins]
    | cons m' ms' =>
      have hflm : ∀ fl ∈ JValue.floatsMems (m' :: ms'), litOk fc fl := by
        intro fl hf
        exact hfl fl (by simp [JValue.floatsMems] at hf ⊢; exact Or.inr hf)
      have hfem : fcountMems (m' :: ms') ≤ f := by
        simp [fcountMems] at hfuel ⊢
        omega
      have hdem : JValue.jdepthMems (m' :: ms') < d := by
        simp [JValue.jdepthMems] at hdep ⊢
        omega
      have hacc' : ∀ p ∈ acc ++ [(k, v)], ∀ q ∈ m' :: ms', keyLt p.1 q.1 = true := by
        intro p hp q hq
        rcases List.mem_append.mp hp with hp' | hp'
        · exact hacc p hp' q (by simp [hq])
        · simp at hp'
          subst hp'
          exact hkeylt q hq
      have hpm : printMems fc ((k, v) :: m' :: ms') ++ rbrace :: rest
          = '"' :: (escapeList k.data ++ '"' ::
              (':' :: (printJ fc v ++ ',' ::
                (printMems fc (m' :: ms') ++ rbrace :: rest)))) := by
        simp [printMems, printStr]
      have hcall : parseMems fc f d (acc ++ [(k, v)])
          (printMems fc (m' :: ms') ++ rbrace :: rest)
          = some ((acc ++ [(k, v)]) ++ m' :: ms', rest) :=
        parse_print_mems fc m'.1 m'.2 ms' hwfms hflm (acc ++ [(k, v)]) f d rest
          hacc' hfem hdem hrest
      rw [hpm, parseMems_step, if_pos rfl, hps _ f hklen]
      simp only [skipWs_colon, if_true]
      rw [skipWs_printJ fc v hflv _,
        parse_print fc v hwfv hflv f d
          (',' :: (printMems fc (m' :: ms') ++ rbrace :: rest)) hfcv hdv
          (goodRest_comma _)]
      simp only [skipWs_comma, if_true]
      obtain ⟨t, hq⟩ := printMems_quote fc m' ms'
      have hskip : skipWs (printMems fc (m' :: ms') ++ rbrace :: rest)
          = printMems fc (m' :: ms') ++ rbrace :: rest := by
        rw [hq, List.cons_append]
        exact skipWs_not_ws '"' _ (by decide)
      rw [hins, hskip, hcall]
      simp
  termination_by sizeOf ((k, v) :: ms)
  decreasing_by all_goals (subst_vars; simp_arith [Prod.mk.eta])

end

/-- Singleton arrays nested `n + 1` levels deep: the serialized form is
`n + 1` opening brackets followed by `n + 1` closing brackets. -/
def nestArr : Nat → JValue
  | 0 => .arr []
  | n + 1 => .arr [nestArr n]

/-- `serde_json::to_string` then `serde_json::from_str` recovers every
well-formed value whose floats print/parse faithfully and whose nesting
depth stays below the parser recursion limit of 128. -/
theorem from_str_to_string (fc : FloatFns) (v : JValue)
    (hwf : v.wfb = true) (hfl : ∀ fl ∈ v.floats, litOk fc fl)
    (hd : v.jdepth < 128) :
    from_str fc (to_string fc v) = some v := by
  have hlen : fcount v ≤ (to_string fc v).data.length + 2 := by
    have h1 := fcount_le fc v
    have h2 : (to_string fc v).data = printJ fc v := rfl
    rw [h2]
    omega
  have hpp := parse_print fc v hwf hfl ((to_string fc v).data.length + 2) 128 []
    hlen hd goodRest_nil
  rw [List.append_nil] at hpp
  have hsw : skipWs (to_string fc v).data = printJ fc v := by
    have h2 := skipWs_printJ fc v hfl []
    rw [List.append_nil] at h2
    exact h2
  unfold from_str
  rw [hsw, hpp]
  simp [skipWs]

/-- A Text cell whose lossily decoded contents parse bridges outbound to
the parsed value. -/
theorem sql_to_json_Text_parse (fc : FloatFns) (bytes : List Nat) (v : JValue)
    (h : from_str fc (String.mk (utf8Lossy bytes)) = some v) :
    sql_to_json_value fc (.Text bytes) = v := by
  simp [sql_to_json_value, h]

/-- C5: for every composite (Array or Object) input that is well formed,
whose float leaves print and re-parse faithfully, and whose nesting depth
is below the serde_json recursion limit of 128, the bind/read round trip
is the identity.  The depth bound is the amendment: the counterexample
shows a 128-deep array fails to re-parse. -/
theorem claim_C5_composite_roundtrip_amended (fc : FloatFns) (v : JValue)
    (hcomp : (∃ xs, v = .arr xs) ∨ (∃ kvs, v = .obj kvs))
    (hwf : v.wfb = true) (hfl : ∀ fl ∈ v.floats, litOk fc fl)
    (hd : v.jdepth < 128) :
    roundTrip fc v = v := by
  have hkey : json_to_sql_value fc v = .Text (to_string fc v) := by
    rcases hcomp with ⟨xs, h⟩ | ⟨kvs, h⟩ <;> (subst h; rfl)
  have hfs : from_str fc (String.mk (utf8Lossy (utf8Encode (to_string fc v))))
      = some v := by
    rw [utf8_roundtrip, string_mk_data]
    exact from_str_to_string fc v hwf hfl hd
  simp only [roundTrip, hkey, bindEcho]
  exact sql_to_json_Text_parse fc _ v hfs

/-- Witness for C5: a two-element array round trips to itself. -/
theorem claim_C5_witness :
    roundTrip fc0 (.arr [.num (.posInt 1), .str "a"])
      = .arr [.num (.posInt 1), .str "a"] :=
  claim_C5_composite_roundtrip_amended fc0 (.arr [.num (.posInt 1), .str "a"])
    (Or.inl ⟨_, rfl⟩)
    (by simp [JValue.wfb, JValue.wfbList, JNumber.wfb, u64Size])
    (by intro fl hf; simp [JValue.floats, JValue.floatsList] at hf)
    (by simp [JValue.jdepth, JValue.jdepthList])

/-- The floats of a nested singleton array: none. -/
theorem nestArr_floats : ∀ n, (nestArr n).floats = [] := by
  intro n
  induction n with
  | zero => simp [nestArr, JValue.floats, JValue.floatsList]
  | succ n ih => simp [nestArr, JValue.floats, JValue.floatsList, ih]

/-- Parsing the serialization of `nestArr n` with remaining depth at most
`n + 1` hits the recursion limit and fails. -/
theorem parse_nest_depth (fc : FloatFns) :
    ∀ n fuel d r, d ≤ n + 1 →
      parseValue fc fuel d (printJ fc (nestArr n) ++ r) = none := by
  intro n
  induction n with
  | zero =>
    intro fuel d r hd
    cases fuel with
    | zero => rfl
    | succ f =>
      have hpj : printJ fc (nestArr 0) ++ r = '[' :: (']' :: r) := by
        simp [nestArr, printJ, printElems]
      have h0 : d - 1 = 0 := by omega
      rw [hpj, parseValue_lbracket, if_pos h0]
  | succ n ih =>
    intro fuel d r hd
    cases fuel with
    | zero => rfl
    | succ f =>
      have hpj : printJ fc (nestArr (n + 1)) ++ r
          = '[' :: (printJ fc (nestArr n) ++ (']' :: r)) := by
        simp [nestArr, printJ, printElems]
      rw [hpj, parseValue_lbracket]
      by_cases h0 : d - 1 = 0
      · rw [if_pos h0]
      · rw [if_neg h0]
        have hhd : ∃ t, printJ fc (nestArr n) = '[' :: t := by
          cases n with
          | zero => exact ⟨[']'], by simp [nestArr, printJ, printElems]⟩
          | succ n2 =>
            exact ⟨printJ fc (nestArr n2) ++ [']'],
              by simp [nestArr, printJ, printElems]⟩
        obtain ⟨t, ht⟩ := hhd
        have hpe : ∀ f2, parseElems fc f2 (d - 1)
            (printJ fc (nestArr n) ++ (']' :: r)) = none := by
          intro f2
          cases f2 with
          | zero => rfl
          | succ f3 =>
            have hv := ih f3 (d - 1) (']' :: r) (by omega)
            simp [parseElems, hv]
        rw [ht, List.cons_append, skipWs_not_ws '[' _ (by decide)]
        simp only []
        rw [if_neg (by decide : ¬('[' : Char) = ']'),
          ← List.cons_append, ← ht, hpe f]

/-- C5 counterexample: the array nested 128 levels deep serializes, but
the serialization exceeds serde_json's recursion limit of 128 on the way
back, so the round trip yields the String of the serialization rather
than the original Array. -/
theorem claim_C5_counterexample :
    roundTrip fc0 (nestArr 127) = .str (to_string fc0 (nestArr 127)) ∧
    roundTrip fc0 (nestArr 127) ≠ nestArr 127 := by
  have hfl : ∀ fl ∈ (nestArr 127).floats, litOk fc0 fl := by
    intro fl hf
    rw [nestArr_floats] at hf
    simp at hf
  have hfs : from_str fc0 (to_string fc0 (nestArr 127)) = none := by
    unfold from_str
    have hsw : skipWs (to_string fc0 (nestArr 127)).data
        = printJ fc0 (nestArr 127) ++ [] := by
      rw [List.append_nil]
      have h2 := skipWs_printJ fc0 (nestArr 127) hfl []
      rw [List.append_nil] at h2
      exact h2
    rw [hsw, parse_nest_depth fc0 127 _ 128 [] (by omega)]
  have htext : String.mk (utf8Lossy (utf8Encode (to_string fc0 (nestArr 127))))
      = to_string fc0 (nestArr 127) := by
    rw [utf8_roundtrip, string_mk_data]
  have hkey : json_to_sql_value fc0 (nestArr 127)
      = .Text (to_string fc0 (nestArr 127)) := by
    have h127 : nestArr 127 = .arr [nestArr 126] := rfl
    rw [h127]
    rfl
  have hmain : roundTrip fc0 (nestArr 127) = .str (to_string fc0 (nestArr 127)) := by
    simp only [roundTrip, hkey, bindEcho, sql_to_json_value]
    rw [htext, hfs]
  refine ⟨hmain, ?_⟩
  rw [hmain]
  have h127 : nestArr 127 = .arr [nestArr 126] := rfl
  rw [h127]
  simp

end ScaleWise
